import Mathlib

/-!  Shallow embedding of the text-processing core of `vlsi_tool_app.py`
(Verilog AI Assistant): module extraction (`get_module_code`), module-name
listing (`get_module_names`), port parsing (`get_ports_for_testbench`),
the AI-reply stripping step of `ask_gemini_for_gate_level_netlist`, and
gate-level diagram construction (`create_gate_level_diagram`).

Text is modelled as `List Char`.  The regular expressions of the source are
translated into explicit matching functions that follow the engine's
backtracking order (leftmost match; greedy quantifiers try the longest
consumption first, lazy ones the shortest).  Character classes and case
mapping are modelled for ASCII text, which is the domain of the tool. -/

abbrev Str := List Char

/-- Python regex `\s` (also `str.strip`'s default set) on ASCII text. -/
def isSpaceC (c : Char) : Bool :=
  c == ' ' || c == '\t' || c == '\n' || c == '\r' || c == '\x0b' || c == '\x0c'

/-- Python regex `\w` on ASCII text. -/
def isWordC (c : Char) : Bool := c.isAlphanum || c == '_'

def kwModule : Str := ['m','o','d','u','l','e']

def kwEndmodule : Str := ['e','n','d','m','o','d','u','l','e']

/-! ## `get_module_names`

Source regex: `^\s*module\s+(\w+)` with `re.MULTILINE`, used via
`re.findall` (leftmost, non-overlapping matches; scanning resumes at each
match end).  At a position where `^` holds, the match is deterministic:
`\s*` must end exactly where `module` starts (whitespace and `m` are
disjoint), and `\s+`/`\w+` are maximal runs (whitespace and word
characters are disjoint). -/

/-- One attempt of `\s*module\s+(\w+)` at a fixed position.
Returns the captured name and the rest of the text after the match. -/
def matchDecl (l : Str) : Option (Str × Str) :=
  let l1 := l.dropWhile isSpaceC
  if kwModule.isPrefixOf l1 then
    let l2 := l1.drop 6
    let l3 := l2.dropWhile isSpaceC
    let nm := l3.takeWhile isWordC
    if l3.length = l2.length ∨ nm = [] then none
    else some (nm, l3.drop nm.length)
  else none

/-- `re.findall` scan: try the pattern at every position where `^` holds
(start of text, or just after a newline), resuming after each match.  A
match always ends on a word character, so the position after it is never a
line start.  Every match consumes at least one character, so a fuel of the
text length is enough; the fuel only totalises the recursion. -/
def scanDeclsAux : Nat → Str → Bool → List Str
  | 0, _, _ => []
  | _ + 1, [], _ => []
  | fuel + 1, l :: ls, atStart =>
    if atStart then
      match matchDecl (l :: ls) with
      | some (nm, r) => nm :: scanDeclsAux fuel r false
      | none => scanDeclsAux fuel ls (l == '\n')
    else scanDeclsAux fuel ls (l == '\n')

/-- The scan at its canonical fuel. -/
def scanD (l : Str) (atStart : Bool) : List Str := scanDeclsAux l.length l atStart

/-- `get_module_names` from the source: all `^\s*module\s+(\w+)` captures. -/
def get_module_names (text : Str) : List Str := scanD text true

/-! ## `get_module_code`

Source regex: `^\s*module\s+NAME[\s\S]*?endmodule` with
`re.DOTALL | re.MULTILINE`, used via `re.search` (leftmost match), where
`NAME` is the escaped module name, matched literally with no trailing word
boundary.  `group(0)` (the whole span) is returned, `None` when there is
no match. -/

/-- Index (from the start of `l`) of the earliest occurrence of `pat` as a
contiguous sublist of `l`. -/
def findSub (pat : Str) : Str → Option Nat
  | [] => if pat.isEmpty then some 0 else none
  | l :: ls =>
    if pat.isPrefixOf (l :: ls) then some 0
    else (findSub pat ls).map (· + 1)

/-- Backtracking for `\s+NAME[\s\S]*?endmodule` after the `module` keyword:
`\s+` greedily tries `k` whitespace characters from the maximal run
downwards (at least one); then `NAME` literally; then the lazy tail ends at
the earliest later `endmodule`.  Returns the number of characters consumed
after the keyword. -/
def matchNameEndFrom (name l : Str) : Nat → Option Nat
  | 0 => none
  | k + 1 =>
    let l2 := l.drop (k + 1)
    if name.isPrefixOf l2 then
      match findSub kwEndmodule (l2.drop name.length) with
      | some j => some (k + 1 + name.length + j + 9)
      | none => matchNameEndFrom name l k
    else matchNameEndFrom name l k

/-- One attempt of the whole `get_module_code` pattern at a fixed position;
returns the length of the matched span. -/
def matchCodeAt (name l : Str) : Option Nat :=
  let w := (l.takeWhile isSpaceC).length
  let l1 := l.drop w
  if kwModule.isPrefixOf l1 then
    (matchNameEndFrom name (l1.drop 6)
        ((l1.drop 6).takeWhile isSpaceC).length).map (w + 6 + ·)
  else none

/-- `re.search` scan for `get_module_code`: leftmost position where `^`
holds and the pattern matches; the matched span (`group(0)`) is returned. -/
def searchCodeAux (name : Str) : Str → Bool → Option Str
  | [], _ => none
  | l :: ls, atStart =>
    if atStart then
      match matchCodeAt name (l :: ls) with
      | some k => some ((l :: ls).take k)
      | none => searchCodeAux name ls (l == '\n')
    else searchCodeAux name ls (l == '\n')

/-- `get_module_code` from the source; `none` models Python's `None`. -/
def get_module_code (name text : Str) : Option Str :=
  searchCodeAux name text true

/-! ## `get_ports_for_testbench`

Header regex (`re.IGNORECASE | re.DOTALL`):
`module\s+NAME\s*#?\s*\(([\s\S]*?)\);` searched at every position
(no anchor); group 1 is the header text up to the earliest `);`.

Port regex (no flags), found over `ports_text + "\n"`:
`(input|output)\s*(?:reg|wire)?\s*(\[[^\]]+\])?\s*([\w\s,]+?)`
`(?=(?:,?\s*(?:input|output|inout|$)))`. -/

/-- ASCII case-insensitive literal match (`re.IGNORECASE`). -/
def ciPrefixOf : Str → Str → Bool
  | [], _ => true
  | _ :: _, [] => false
  | c :: p, d :: l => (c.toLower == d.toLower) && ciPrefixOf p l

/-- `\s*#?\s*\(([\s\S]*?)\);` after the module name: optional whitespace,
optional `#`, optional whitespace, `(`, then the lazy group up to the
earliest `);`.  The whitespace runs are maximal (the following characters
`#` and `(` are not whitespace, so no other split can succeed). -/
def matchParen (l : Str) : Option Str :=
  let a := l.dropWhile isSpaceC
  let b := match a with
    | '#' :: t => t.dropWhile isSpaceC
    | _ => a
  match b with
  | '(' :: t => (findSub [')', ';'] t).map (fun j => t.take j)
  | _ => none

/-- `\s+NAME\s*#?\s*\(...\);` after the `module` keyword, with greedy
backtracking over the `\s+` length (largest first, at least one). -/
def matchHeaderAfterFrom (name l : Str) : Nat → Option Str
  | 0 => none
  | k + 1 =>
    let l2 := l.drop (k + 1)
    if ciPrefixOf name l2 then
      match matchParen (l2.drop name.length) with
      | some g => some g
      | none => matchHeaderAfterFrom name l k
    else matchHeaderAfterFrom name l k

/-- One attempt of the header pattern at a fixed position. -/
def matchHeaderAt (name l : Str) : Option Str :=
  if ciPrefixOf kwModule l then
    matchHeaderAfterFrom name (l.drop 6) (((l.drop 6).takeWhile isSpaceC).length)
  else none

/-- `re.search` scan for the header pattern (tried at every position). -/
def searchHeader (name : Str) : Str → Option Str
  | [] => none
  | l :: ls =>
    match matchHeaderAt name (l :: ls) with
    | some g => some g
    | none => searchHeader name ls

/-- Characters matched by `[\w\s,]`. -/
def isNameChar (c : Char) : Bool := isWordC c || isSpaceC c || c == ','

/-- `$` with no `re.MULTILINE`: end of the string, or just before a
trailing final newline. -/
def dollarOk : Str → Bool
  | [] => true
  | ['\n'] => true
  | _ => false

/-- The alternatives of the lookahead after `,?`:
one literal, or `$` after some prefix of the whitespace run. -/
def lkLits (s : Str) : Bool :=
  (['i','n','p','u','t'].isPrefixOf s) || (['o','u','t','p','u','t'].isPrefixOf s) ||
    (['i','n','o','u','t'].isPrefixOf s) || dollarOk s

/-- `\s*(?:input|output|inout|$)`: try every consumption of the whitespace
run (the order is irrelevant for a zero-width assertion). -/
def lkTailFrom (t : Str) : Nat → Bool
  | 0 => lkLits t
  | k + 1 => lkLits (t.drop (k + 1)) || lkTailFrom t k

def lkTail (t : Str) : Bool := lkTailFrom t ((t.takeWhile isSpaceC).length)

/-- The lookahead `(?=(?:,?\s*(?:input|output|inout|$)))`. -/
def lookaheadOk (s : Str) : Bool :=
  match s with
  | ',' :: s1 => lkTail s1 || lkTail s
  | _ => lkTail s

/-- Lazy `([\w\s,]+?)` followed by the lookahead: consume one `[\w\s,]`
character at a time, stopping at the first position where the lookahead
holds.  Returns the captured group and the rest (the match end, since the
lookahead is zero-width). -/
def matchNamesGo (acc : Str) : Str → Option (Str × Str)
  | [] => none
  | c :: rest =>
    if isNameChar c then
      if lookaheadOk rest then some (acc ++ [c], rest)
      else matchNamesGo (acc ++ [c]) rest
    else none

def matchNames (l : Str) : Option (Str × Str) := matchNamesGo [] l

/-- `(\[[^\]]+\])?` when present: `[`, a maximal nonempty run of
non-`]` characters, then `]`.  Returns the capture and the rest. -/
def matchWidth (l : Str) : Option (Str × Str) :=
  match l with
  | '[' :: t =>
    let body := t.takeWhile (fun c => !(c == ']'))
    if body.isEmpty then none
    else
      match t.drop body.length with
      | ']' :: r => some ('[' :: (body ++ [']']), r)
      | _ => none
  | _ => none

/-- The ways a greedy `\s*` can consume, longest first. -/
def wsDrops (l : Str) : List Str :=
  ((List.range ((l.takeWhile isSpaceC).length + 1)).reverse).map (fun n => l.drop n)

/-- The ways `(?:reg|wire)?` can consume, in the engine's order. -/
def rwDrops (l : Str) : List Str :=
  (if (['r','e','g'].isPrefixOf l) then [l.drop 3] else []) ++
    (if (['w','i','r','e'].isPrefixOf l) then [l.drop 4] else []) ++ [l]

/-- The ways `(\[[^\]]+\])?` can consume: present first, then absent
(Python's `findall` reports `''` for an unmatched group, modelled `[]`). -/
def widthOpts (l : Str) : List (Str × Str) :=
  (match matchWidth l with
   | some (w, r) => [(w, r)]
   | none => []) ++ [([], l)]

/-- All starting states for the name group after the direction keyword,
in backtracking priority order:
`\s* (?:reg|wire)? \s* (\[[^\]]+\])? \s*`. -/
def candAfterDir (l0 : Str) : List (Str × Str) :=
  (wsDrops l0).flatMap (fun l1 =>
    (rwDrops l1).flatMap (fun l2 =>
      (wsDrops l2).flatMap (fun l3 =>
        (widthOpts l3).flatMap (fun wl =>
          (wsDrops wl.2).map (fun l5 => (wl.1, l5))))))

def firstSome : List (Option α) → Option α
  | [] => none
  | some a :: _ => some a
  | none :: rest => firstSome rest

/-- The part of the port pattern after `(input|output)`: first full
success in backtracking order.  Returns (width capture, name capture,
rest after the match). -/
def matchAfterDir (l0 : Str) : Option (Str × Str × Str) :=
  firstSome ((candAfterDir l0).map (fun p =>
    (matchNames p.2).map (fun q => (p.1, q.1, q.2))))

/-- A `findall` tuple of the port regex: `(p_type, p_width, p_names)`. -/
structure PortGroup where
  dir : Str
  width : Str
  names : Str
  deriving DecidableEq

/-- One attempt of the port pattern at a fixed position.  `input` and
`output` cannot both literally match, so the alternation is determined by
the first character. -/
def matchPortAt (l : Str) : Option (PortGroup × Str) :=
  if (['i','n','p','u','t'].isPrefixOf l) then
    (matchAfterDir (l.drop 5)).map
      (fun x => (⟨['i','n','p','u','t'], x.1, x.2.1⟩, x.2.2))
  else if (['o','u','t','p','u','t'].isPrefixOf l) then
    (matchAfterDir (l.drop 6)).map
      (fun x => (⟨['o','u','t','p','u','t'], x.1, x.2.1⟩, x.2.2))
  else none

/-- `findall` scan for the port regex.  Every match consumes at least six
characters, so a fuel of the text length is enough; the fuel only
totalises the recursion. -/
def scanPortsAux : Nat → Str → List PortGroup
  | 0, _ => []
  | _ + 1, [] => []
  | fuel + 1, l :: ls =>
    match matchPortAt (l :: ls) with
    | some (g, r) => g :: scanPortsAux fuel r
    | none => scanPortsAux fuel ls

def scanPorts (l : Str) : List PortGroup := scanPortsAux l.length l

/-- Python `str.strip()` (ASCII whitespace). -/
def pyStripWs (s : Str) : Str :=
  ((s.dropWhile isSpaceC).reverse.dropWhile isSpaceC).reverse

/-- Python `str.split(',')`: split at every comma, keeping empty pieces. -/
def splitComma : Str → List Str
  | [] => [[]]
  | ',' :: rest => [] :: splitComma rest
  | c :: rest =>
    match splitComma rest with
    | h :: t => (c :: h) :: t
    | [] => [[c]]

/-- Line 49 of the source:
`f"{p_width.strip() if p_width else ''} {name}"` followed by `.strip()`. -/
def portInfo (w nm : Str) : Str :=
  pyStripWs ((if w.isEmpty then [] else pyStripWs w) ++ ' ' :: nm)

/-- Lines 46-53: split each group's names on commas, strip, drop empties,
and append the formatted entries to the inputs or outputs per the
direction keyword. -/
def buildPorts (gs : List PortGroup) : List Str × List Str :=
  gs.foldl (fun acc g =>
    let names := ((splitComma (pyStripWs g.names)).map pyStripWs).filter
      (fun nm => !nm.isEmpty)
    let infos := names.map (portInfo g.width)
    if g.dir = ['i','n','p','u','t'] then (acc.1 ++ infos, acc.2)
    else (acc.1, acc.2 ++ infos)) ([], [])

/-- `get_ports_for_testbench` from the source.  The model is total; the
source's `try/except` wraps operations that cannot raise, and the missing
header case returns two empty lists. -/
def get_ports_for_testbench (name text : Str) : List Str × List Str :=
  match searchHeader name text with
  | none => ([], [])
  | some g => buildPorts (scanPorts (g ++ ['\n']))

/-! ## The netlist-reply stripping step

Line 84 of the source strips the reply with
strip(), then lstrip of the seven characters of backtick-backtick-backtick-j-s-o-n,
then rstrip of three backticks.  Python's `lstrip`/`rstrip` take a
character *set*, so the left strip removes any leading run over the
backtick, `j`, `s`, `o`, `n` characters and the right strip any trailing
run of backticks. -/

def lstripSet (l : Str) : Str :=
  l.dropWhile (fun c => c == '`' || c == 'j' || c == 's' || c == 'o' || c == 'n')

def rstripBt (l : Str) : Str :=
  (l.reverse.dropWhile (fun c => c == '`')).reverse

def stripReply (r : Str) : Str := rstripBt (lstripSet (pyStripWs r))

/-! ## `create_gate_level_diagram`

The graphviz `Digraph` is modelled as the sequence of node statements and
the sequence of edge statements the function emits.  Graphviz identifies
nodes by id, so the stated properties are about ids and statement
multiplicity, never about the set-iteration order of `all_nodes`, which is
modelled as an insertion-ordered duplicate-free list. -/

inductive NodeKind where
  | inputPort
  | outputPort
  | gateNode
  | errorNode
  | junction
  deriving DecidableEq

structure DNode where
  id : Str
  label : Str
  kind : NodeKind
  deriving DecidableEq

structure Diagram where
  nodes : List DNode
  edges : List (Str × Str)
  deriving DecidableEq

/-- A gate record of the JSON netlist; fields may be absent. -/
structure Gate where
  typ : Option Str
  out : Option Str
  ins : List Str
  deriving DecidableEq

/-- A parsed netlist dictionary: an `error` key (when present) plus the
three list fields, each read with `.get(key, default)` semantics. -/
structure Netlist where
  err : Option Str
  inputs : List Str
  outputs : List Str
  gates : List Gate
  deriving DecidableEq

/-- Python `set.add` on the insertion-ordered model of `all_nodes`. -/
def dedupAdd (s : List Str) (x : Str) : List Str :=
  if x ∈ s then s else s ++ [x]

def gateIdStr (i : Nat) (gt : Str) : Str :=
  ['g','a','t','e','_'] ++ Nat.toDigits 10 i ++ '_' :: gt.map Char.toLower

/-- Default for `gate.get("type", "gate")`. -/
def kwGate : Str := ['g','a','t','e']

/-- The gate loop (source lines 148-160): one node per gate, an edge to
the output wire when it is truthy, an edge from every listed input wire,
threading the `all_nodes` accumulation.  Returns the gate nodes, the
edges, and the final `all_nodes`. -/
def processGates : List Gate → Nat → List Str → List DNode × List (Str × Str) × List Str
  | [], _, all => ([], [], all)
  | g :: gs, i, all =>
    let gt := (g.typ.getD kwGate).map Char.toUpper
    let gid := gateIdStr i gt
    let outE : List (Str × Str) × List Str :=
      match g.out with
      | some o => if o.isEmpty then ([], all) else ([(gid, o)], dedupAdd all o)
      | none => ([], all)
    let inE := g.ins.map (fun w => (w, gid))
    let all2 := g.ins.foldl dedupAdd outE.2
    let rest := processGates gs (i + 1) all2
    (⟨gid, gt, .gateNode⟩ :: rest.1, outE.1 ++ inE ++ rest.2.1, rest.2.2)

/-- The junction loop (source lines 163-168): every collected wire that is
neither a declared input, nor a declared output, nor some gate's output
becomes an unlabeled point node. -/
def junctionNodes (n : Netlist) (all : List Str) : List DNode :=
  (all.filter (fun w =>
    !(n.inputs.contains w) && !(n.outputs.contains w) &&
      !(n.gates.any (fun g => g.out == some w)))).map
    (fun w => ⟨w, w, .junction⟩)

/-- `create_gate_level_diagram` from the source. -/
def create_gate_level_diagram (n : Netlist) : Diagram :=
  match n.err with
  | some e => ⟨[⟨['e','r','r','o','r'], ['E','r','r','o','r',':','\n'] ++ e, .errorNode⟩], []⟩
  | none =>
    let inNodes := n.inputs.map (fun p => (⟨p, p, .inputPort⟩ : DNode))
    let all0 := n.inputs.foldl dedupAdd []
    let outNodes := n.outputs.map (fun p => (⟨p, p, .outputPort⟩ : DNode))
    let all1 := n.outputs.foldl dedupAdd all0
    let g := processGates n.gates 0 all1
    ⟨inNodes ++ outNodes ++ g.1 ++ junctionNodes n g.2.2, g.2.1⟩

/-! ## Claim-side (spec-side) definitions -/

/-- Claim C4's per-line reading: a line that begins, after optional
leading whitespace, with the `module` keyword followed by whitespace and
an identifier (a nonempty run of word characters); yields the identifier. -/
def lineName (line : Str) : Option Str :=
  let r := line.dropWhile isSpaceC
  if kwModule.isPrefixOf r then
    match r.drop 6 with
    | [] => none
    | c :: t =>
      if isSpaceC c then
        let nm := ((c :: t).dropWhile isSpaceC).takeWhile isWordC
        if nm.isEmpty then none else some nm
      else none
  else none

/-- A source text as the join of its newline-free lines. -/
def joinNL : List Str → Str
  | [] => []
  | [line] => line
  | line :: rest => line ++ '\n' :: joinNL rest

/-- A match of the `get_module_code` pattern somewhere in `text`:
at the start of a line, optional whitespace, the `module` keyword, at
least one whitespace character, the requested name as a literal prefix,
and a later `endmodule`. -/
def CodeMatchExists (name text : Str) : Prop :=
  ∃ pre w1 w2 mid post : Str,
    text = pre ++ w1 ++ kwModule ++ w2 ++ name ++ mid ++ kwEndmodule ++ post ∧
      (pre = [] ∨ pre.getLast? = some '\n') ∧
      w1.all isSpaceC ∧ w2.all isSpaceC ∧ w2 ≠ []

/-- A match of the `get_module_code` pattern at the start of `l`. -/
def SufMatchCode (name l : Str) : Prop :=
  ∃ w1 w2 mid post : Str,
    l = w1 ++ (kwModule ++ (w2 ++ (name ++ (mid ++ (kwEndmodule ++ post))))) ∧
      w1.all isSpaceC = true ∧ w2.all isSpaceC = true ∧ w2 ≠ []

/-! ## General helper lemmas -/

theorem length_dropWhile_le (p : Char → Bool) (l : Str) :
    (l.dropWhile p).length ≤ l.length := by
  induction l with
  | nil => simp
  | cons c t ih => rw [List.dropWhile_cons]; split <;> (simp; try omega)

theorem dropWhile_eq_self_of_length {p : Char → Bool} {l : Str}
    (h : (l.dropWhile p).length = l.length) : l.dropWhile p = l := by
  induction l with
  | nil => simp
  | cons c t ih =>
    by_cases hc : p c = true
    · rw [List.dropWhile_cons, if_pos hc] at h
      have := length_dropWhile_le p t
      exfalso
      simp at h
      omega
    · rw [List.dropWhile_cons, if_neg hc]

theorem dropWhile_head_false {p : Char → Bool} {c : Char} {t : Str}
    (h : (c :: t).dropWhile p = c :: t) : p c = false := by
  by_contra hc
  rw [List.dropWhile_cons, if_pos (by revert hc; cases p c <;> simp)] at h
  have h1 := congrArg List.length h
  have := length_dropWhile_le p t
  simp at h1
  omega

theorem dropWhile_append_of_all {p : Char → Bool} {x : Str} (y : Str)
    (h : x.all p) : (x ++ y).dropWhile p = y.dropWhile p := by
  induction x with
  | nil => rfl
  | cons c t ih =>
    simp only [List.all_cons, Bool.and_eq_true] at h
    rw [List.cons_append, List.dropWhile_cons, if_pos h.1]
    exact ih h.2

theorem dropWhile_cons_false {p : Char → Bool} {c : Char} (t : Str)
    (h : p c = false) : (c :: t).dropWhile p = c :: t := by
  rw [List.dropWhile_cons, if_neg (by simp [h])]

/-- A strip-invariant list keeps dropping nothing on the left. -/
theorem stripInv_dropWhile {x : Str} (h : pyStripWs x = x) :
    x.dropWhile isSpaceC = x := by
  apply dropWhile_eq_self_of_length
  have h1 := congrArg List.length h
  unfold pyStripWs at h1
  have h2 := length_dropWhile_le isSpaceC ((x.dropWhile isSpaceC).reverse)
  simp only [List.length_reverse] at h1 h2
  have := length_dropWhile_le isSpaceC x
  omega

/-- A strip-invariant list also keeps dropping nothing on the right. -/
theorem stripInv_rev_dropWhile {x : Str} (h : pyStripWs x = x) :
    x.reverse.dropWhile isSpaceC = x.reverse := by
  have h1 := stripInv_dropWhile h
  unfold pyStripWs at h
  rw [h1] at h
  rw [← List.reverse_inj] at h
  simpa using h

theorem stripInv_head {x : Str} {c : Char} {t : Str}
    (h : pyStripWs x = x) (hx : x = c :: t) : isSpaceC c = false := by
  have := stripInv_dropWhile h
  rw [hx] at this
  exact dropWhile_head_false this

theorem stripInv_revhead {x : Str} {d : Char} {s : Str}
    (h : pyStripWs x = x) (hx : x.reverse = d :: s) : isSpaceC d = false := by
  have := stripInv_rev_dropWhile h
  rw [hx] at this
  exact dropWhile_head_false this

/-! ## Claims C7 and C10: the error branch of the renderer -/

/-- Claim C7: for every error record, the renderer produces a diagram with
exactly one node, whose label is the error banner followed by the message
(so the label contains the message), and no edges. -/
theorem c7_error_record_single_node (X : Str) :
    (create_gate_level_diagram ⟨some X, [], [], []⟩).nodes =
      [⟨['e','r','r','o','r'], ['E','r','r','o','r',':','\n'] ++ X, .errorNode⟩] ∧
    (create_gate_level_diagram ⟨some X, [], [], []⟩).nodes.length = 1 ∧
    (create_gate_level_diagram ⟨some X, [], [], []⟩).edges = [] :=
  ⟨rfl, rfl, rfl⟩

/-- Claim C10: the presence of the `error` key alone decides the error
branch: any inputs, outputs or gates present alongside it are ignored, and
the diagram is the single error node with no edges. -/
theorem c10_error_key_ignores_fields (e : Str) (I O : List Str) (G : List Gate) :
    create_gate_level_diagram ⟨some e, I, O, G⟩ =
      create_gate_level_diagram ⟨some e, [], [], []⟩ ∧
    (create_gate_level_diagram ⟨some e, I, O, G⟩).nodes.length = 1 ∧
    (create_gate_level_diagram ⟨some e, I, O, G⟩).edges = [] :=
  ⟨rfl, rfl, rfl⟩

/-! ## Claim C5: missing or unparsable header -/

/-- Claim C5: when the header regex finds no match the Port Parser returns
two empty sequences, and likewise when the header text yields no port
groups; the model is a total function, mirroring that the source never
raises (its `try/except` guards operations that cannot fail). -/
theorem c5_no_header_two_empty (name text : Str) :
    (searchHeader name text = none → get_ports_for_testbench name text = ([], [])) ∧
    (∀ g, searchHeader name text = some g → scanPorts (g ++ ['\n']) = [] →
      get_ports_for_testbench name text = ([], [])) := by
  constructor
  · intro h
    simp [get_ports_for_testbench, h]
  · intro g hg hs
    simp [get_ports_for_testbench, hg, hs, buildPorts]

theorem c5_no_header_two_empty_witness :
    searchHeader ['m'] ['x'] = none ∧
      get_ports_for_testbench ['m'] ['x'] = ([], []) :=
  ⟨by decide, (c5_no_header_two_empty ['m'] ['x']).1 (by decide)⟩

/-! ## Claim C2: `inout` ports -/

/-- Claim C2 counterexample: in the header `module m(input a, inout b);`
the `inout` port `b` appears in neither sequence; in particular it is not
in the outputs, contradicting the claim that `inout` ports are folded into
the output sequence. -/
theorem c2_counterexample :
    get_ports_for_testbench ("m".toList) ("module m(input a, inout b);".toList) =
      ([['a']], []) ∧
    ['b'] ∉ (get_ports_for_testbench ("m".toList)
      ("module m(input a, inout b);".toList)).2 := by decide

theorem matchPortAt_dir {l : Str} {g : PortGroup} {r : Str}
    (h : matchPortAt l = some (g, r)) :
    g.dir = ['i','n','p','u','t'] ∨ g.dir = ['o','u','t','p','u','t'] := by
  unfold matchPortAt at h
  split at h
  · rw [Option.map_eq_some'] at h
    obtain ⟨x, _, hx⟩ := h
    injection hx with h1 h2
    left
    rw [← h1]
  · split at h
    · rw [Option.map_eq_some'] at h
      obtain ⟨x, _, hx⟩ := h
      injection hx with h1 h2
      right
      rw [← h1]
    · exact absurd h (by simp)

theorem scanPortsAux_dir (f : Nat) :
    ∀ (l : Str) (g : PortGroup), g ∈ scanPortsAux f l →
      g.dir = ['i','n','p','u','t'] ∨ g.dir = ['o','u','t','p','u','t'] := by
  induction f with
  | zero => intro l g h; simp [scanPortsAux] at h
  | succ f ih =>
    intro l g h
    match l with
    | [] => simp [scanPortsAux] at h
    | c :: ls =>
      simp only [scanPortsAux] at h
      cases hm : matchPortAt (c :: ls) with
      | some gr =>
        obtain ⟨g', r'⟩ := gr
        rw [hm] at h
        simp only [] at h
        rcases List.mem_cons.1 h with rfl | h2
        · exact matchPortAt_dir hm
        · exact ih _ _ h2
      | none =>
        rw [hm] at h
        exact ih _ _ h

/-- Claim C2 amended: the port-group matcher captures only groups whose
direction keyword is literally `input` or `output`; a group introduced by
`inout` is never captured, so the names of an `inout` port reach neither
sequence (the `else` branch of the direction test only ever receives
`output` groups). -/
theorem c2_amended_no_inout_group (l : Str) (g : PortGroup)
    (hg : g ∈ scanPorts l) :
    g.dir = ['i','n','p','u','t'] ∨ g.dir = ['o','u','t','p','u','t'] :=
  scanPortsAux_dir l.length l g hg

theorem c2_amended_no_inout_group_witness :
    (⟨['i','n','p','u','t'], [], ['a']⟩ : PortGroup) ∈
        scanPorts ("input a\n".toList) ∧
      ((⟨['i','n','p','u','t'], [], ['a']⟩ : PortGroup).dir = ['i','n','p','u','t'] ∨
        (⟨['i','n','p','u','t'], [], ['a']⟩ : PortGroup).dir = ['o','u','t','p','u','t']) :=
  ⟨by decide, c2_amended_no_inout_group ("input a\n".toList) _ (by decide)⟩

/-! ## Claim C3: width prefixes -/

theorem pyStrip_keep {x : Str} (h1 : x.dropWhile isSpaceC = x)
    (h2 : x.reverse.dropWhile isSpaceC = x.reverse) : pyStripWs x = x := by
  unfold pyStripWs
  rw [h1, h2, List.reverse_reverse]

/-- Claim C3: on the header `module m(input [3:0] a, output b);` the Port
Parser returns inputs `["[3:0] a"]` and outputs `["b"]`; and in general a
present width capture is prefixed, separated by one space, onto every
stripped nonempty port name. -/
theorem c3_concrete_and_width_prefixed :
    get_ports_for_testbench ("m".toList) ("module m(input [3:0] a, output b);".toList) =
      ([("[3:0] a".toList)], [['b']]) ∧
    ∀ w nm : Str, pyStripWs w = w → w ≠ [] → pyStripWs nm = nm → nm ≠ [] →
      portInfo w nm = w ++ ' ' :: nm := by
  constructor
  · decide
  · intro w nm hw hw0 hnm hnm0
    obtain ⟨c, t, rfl⟩ : ∃ c t, w = c :: t := by
      cases w with
      | nil => exact absurd rfl hw0
      | cons c t => exact ⟨c, t, rfl⟩
    obtain ⟨d, s, hds⟩ : ∃ d s, nm.reverse = d :: s := by
      cases hrev : nm.reverse with
      | nil => rw [List.reverse_eq_nil_iff] at hrev; exact absurd hrev hnm0
      | cons d s => exact ⟨d, s, rfl⟩
    have hc := stripInv_head hw rfl
    have hd := stripInv_revhead hnm hds
    unfold portInfo
    rw [if_neg (by simp), hw]
    have he : ((c :: t) ++ ' ' :: nm).reverse = d :: (s ++ ' ' :: (t.reverse ++ [c])) := by
      simp [hds]
    apply pyStrip_keep
    · rw [List.cons_append]
      exact dropWhile_cons_false _ hc
    · rw [he]
      exact dropWhile_cons_false _ hd

theorem c3_concrete_and_width_prefixed_witness :
    pyStripWs ("[3:0]".toList) = "[3:0]".toList ∧ ("[3:0]".toList : Str) ≠ [] ∧
      pyStripWs ['a'] = ['a'] ∧ (['a'] : Str) ≠ [] ∧
      portInfo ("[3:0]".toList) ['a'] = "[3:0]".toList ++ ' ' :: ['a'] :=
  ⟨by decide, by decide, by decide, by decide,
    c3_concrete_and_width_prefixed.2 ("[3:0]".toList) ['a']
      (by decide) (by decide) (by decide) (by decide)⟩


/-! ## Claim C9: strip-then-parse equals parse of the inner content -/

theorem space_not_stripset {c : Char} (h : isSpaceC c = true) :
    (c == '`' || c == 'j' || c == 's' || c == 'o' || c == 'n') = false := by
  by_contra hb
  simp only [Bool.or_eq_true, beq_iff_eq, Bool.not_eq_false] at hb
  rcases hb with ((((rfl | rfl) | rfl) | rfl) | rfl) <;> exact absurd h (by decide)

theorem space_not_backtick {c : Char} (h : isSpaceC c = true) :
    (c == '`') = false := by
  by_contra hb
  simp only [beq_iff_eq, Bool.not_eq_false] at hb
  subst hb
  exact absurd h (by decide)

theorem all_reverse_ws {v : Str} (hv : v.all isSpaceC = true) :
    v.reverse.all isSpaceC = true := by
  rw [List.all_reverse]; exact hv

theorem pyStrip_sandwich {u v t s : Str} {c d : Char}
    (hu : u.all isSpaceC = true) (hv : v.all isSpaceC = true)
    (hc : isSpaceC c = false) (hd : isSpaceC d = false)
    (hx : (c :: t).reverse = d :: s) :
    pyStripWs (u ++ ((c :: t) ++ v)) = c :: t := by
  unfold pyStripWs
  rw [dropWhile_append_of_all _ hu]
  rw [List.cons_append, dropWhile_cons_false _ hc]
  have h2 : (c :: (t ++ v)).reverse = v.reverse ++ (d :: s) := by
    rw [← hx]; simp
  rw [h2, dropWhile_append_of_all _ (all_reverse_ws hv), dropWhile_cons_false _ hd,
    ← hx]
  simp

/-- Claim C9: for a reply that is a single JSON object wrapped in a fenced
code block tagged `json` (with optional whitespace inside and around the
fence), the source's stripping step leaves exactly the object surrounded
by whitespace, so every parser that ignores surrounding whitespace parses
the stripped reply to the very value it gives the unwrapped content. -/
theorem c9_strip_then_parse {α : Type} (parse : Str → α)
    (hp : ∀ u s v : Str, u.all isSpaceC = true → v.all isSpaceC = true →
      parse (u ++ s ++ v) = parse s)
    (wsA mid body wsC wsB : Str)
    (hA : wsA.all isSpaceC = true) (hM : mid.all isSpaceC = true)
    (hC : wsC.all isSpaceC = true) (hB : wsB.all isSpaceC = true)
    (hb1 : ∃ b1, body = '{' :: b1) (hb2 : body.reverse.head? = some '}') :
    parse (stripReply (wsA ++ ("```json".toList) ++ mid ++ body ++ wsC ++
        ("```".toList) ++ wsB)) = parse body := by
  obtain ⟨b1, rfl⟩ := hb1
  obtain ⟨s2, hs2⟩ : ∃ s2, ('{' :: b1).reverse = '}' :: s2 := by
    cases hrev : ('{' :: b1).reverse with
    | nil => exact absurd (congrArg List.length hrev) (by simp)
    | cons d s =>
      rw [hrev] at hb2
      simp only [List.head?_cons, Option.some.injEq] at hb2
      exact ⟨s, by rw [hb2]⟩
  have hshape : wsA ++ ("```json".toList) ++ mid ++ ('{' :: b1) ++ wsC ++
      ("```".toList) ++ wsB =
      wsA ++ (('`' :: ('`' :: '`' :: 'j' :: 's' :: 'o' :: 'n' ::
        (mid ++ (('{' :: b1) ++ (wsC ++ ("```".toList)))))) ++ wsB) := by
    simp [List.append_assoc]
  -- the reverse of the core starts with a backtick (from the closing fence)
  have hcorerev : ∃ s3, (('`' : Char) :: ('`' :: '`' :: 'j' :: 's' :: 'o' :: 'n' ::
      (mid ++ (('{' :: b1) ++ (wsC ++ ("```".toList)))))).reverse = '`' :: s3 := by
    refine ⟨('`' :: '`' :: (wsC.reverse ++ (('}' :: s2) ++
      (mid.reverse ++ ['n','o','s','j','`','`','`'])))), ?_⟩
    simp [← hs2]
  obtain ⟨s3, hs3⟩ := hcorerev
  have h1 : pyStripWs (wsA ++ ("```json".toList) ++ mid ++ ('{' :: b1) ++ wsC ++
      ("```".toList) ++ wsB) =
      ('`' : Char) :: ('`' :: '`' :: 'j' :: 's' :: 'o' :: 'n' ::
        (mid ++ (('{' :: b1) ++ (wsC ++ ("```".toList))))) := by
    rw [hshape]
    exact pyStrip_sandwich hA hB (by decide) (by decide) hs3
  
  have h2 : lstripSet (('`' : Char) :: ('`' :: '`' :: 'j' :: 's' :: 'o' :: 'n' ::
      (mid ++ (('{' :: b1) ++ (wsC ++ ("```".toList)))))) =
      mid ++ (('{' :: b1) ++ (wsC ++ ("```".toList))) := by
    unfold lstripSet
    have hsh : (('`' : Char) :: ('`' :: '`' :: 'j' :: 's' :: 'o' :: 'n' ::
        (mid ++ (('{' :: b1) ++ (wsC ++ ("```".toList)))))) =
        ['`','`','`','j','s','o','n'] ++
          (mid ++ (('{' :: b1) ++ (wsC ++ ("```".toList)))) := rfl
    rw [hsh, dropWhile_append_of_all _ (by decide)]
    cases mid with
    | nil =>
      rw [List.nil_append, List.cons_append]
      exact dropWhile_cons_false _ (by decide)
    | cons c t =>
      simp only [List.all_cons, Bool.and_eq_true] at hM
      rw [List.cons_append]
      exact dropWhile_cons_false _ (space_not_stripset hM.1)
  have h3 : rstripBt (mid ++ (('{' :: b1) ++ (wsC ++ ("```".toList)))) =
      mid ++ (('{' :: b1) ++ wsC) := by
    unfold rstripBt
    have hRrev : (mid ++ (('{' :: b1) ++ (wsC ++ ("```".toList)))).reverse =
        ['`','`','`'] ++ (wsC.reverse ++ (('}' :: s2) ++ mid.reverse)) := by
      simp [← hs2]
    rw [hRrev, dropWhile_append_of_all _ (by decide)]
    have h4 : (wsC.reverse ++ (('}' :: s2) ++ mid.reverse)).dropWhile (fun c => c == '`') =
        wsC.reverse ++ (('}' :: s2) ++ mid.reverse) := by
      cases hwc : wsC.reverse with
      | nil =>
        rw [List.nil_append, List.cons_append]
        exact dropWhile_cons_false _ (by decide)
      | cons d s4 =>
        have hd : isSpaceC d = true := by
          have hmem : d ∈ wsC := by
            rw [← List.mem_reverse, hwc]; exact List.mem_cons_self _ _
          exact List.all_eq_true.1 hC d hmem
        rw [List.cons_append]
        exact dropWhile_cons_false _ (space_not_backtick hd)
    rw [h4]
    rw [show ('}' : Char) :: s2 = ('{' :: b1).reverse from hs2.symm]
    simp
  unfold stripReply
  rw [h1, h2, h3]
  have := hp mid ('{' :: b1) wsC hM hC
  rw [← List.append_assoc]
  exact this

theorem filter_not_space_of_all {u : Str} (hu : u.all isSpaceC = true) :
    u.filter (fun c => !(isSpaceC c)) = [] :=
  List.filter_eq_nil_iff.2 (fun a ha => by simp [List.all_eq_true.1 hu a ha])

theorem c9_strip_then_parse_witness :
    (stripReply ("```json\n{x}\n```".toList)).filter (fun c => !(isSpaceC c)) =
      ("{x}".toList).filter (fun c => !(isSpaceC c)) := by
  have h := c9_strip_then_parse (fun l => l.filter (fun c => !(isSpaceC c)))
    (fun u s v hu hv => by
      simp [List.filter_append, filter_not_space_of_all hu, filter_not_space_of_all hv])
    [] ['\n'] ("{x}".toList) ['\n'] []
    (by decide) (by decide) (by decide) (by decide)
    ⟨['x', '}'], by decide⟩ (by decide)
  have harg : ([] : Str) ++ ("```json".toList) ++ ['\n'] ++ ("{x}".toList) ++ ['\n'] ++
      ("```".toList) ++ [] = "```json\n{x}\n```".toList := by decide
  rw [harg] at h
  exact h

/-! ## Claims C6: the one-gate netlist family -/

theorem mem_dedupAdd {s : List Str} {x w : Str} :
    w ∈ dedupAdd s x ↔ w ∈ s ∨ w = x := by
  unfold dedupAdd
  split
  · constructor
    · exact Or.inl
    · rintro (h | rfl)
      · exact h
      · assumption
  · simp

theorem mem_foldl_dedupAdd {l : List Str} {s : List Str} {w : Str} :
    w ∈ l.foldl dedupAdd s ↔ w ∈ s ∨ w ∈ l := by
  induction l generalizing s with
  | nil => simp
  | cons c t ih =>
    rw [List.foldl_cons, ih, mem_dedupAdd]
    constructor
    · rintro ((h | rfl) | h)
      · exact Or.inl h
      · exact Or.inr (List.mem_cons_self _ _)
      · exact Or.inr (List.mem_cons_of_mem _ h)
    · rintro (h | h)
      · exact Or.inl (Or.inl h)
      · rcases List.mem_cons.1 h with rfl | h2
        · exact Or.inl (Or.inr rfl)
        · exact Or.inr h2

/-- Unfolding of the renderer on the one-gate netlist family of claim C6. -/
theorem c6_compute (I O : List Str) (a b y : Str) (hy : y ≠ []) :
    create_gate_level_diagram ⟨none, I, O, [⟨some ("and".toList), some y, [a, b]⟩]⟩ =
      ⟨I.map (fun p => (⟨p, p, .inputPort⟩ : DNode)) ++
        (O.map (fun p => (⟨p, p, .outputPort⟩ : DNode)) ++
         ([⟨"gate_0_and".toList, "AND".toList, .gateNode⟩] ++
          junctionNodes ⟨none, I, O, [⟨some ("and".toList), some y, [a, b]⟩]⟩
            ([a, b].foldl dedupAdd
              (dedupAdd (O.foldl dedupAdd (I.foldl dedupAdd [])) y)))),
       [("gate_0_and".toList, y), (a, "gate_0_and".toList), (b, "gate_0_and".toList)]⟩ := by
  have hne : y.isEmpty = false := by
    cases y with
    | nil => exact absurd rfl hy
    | cons c t => rfl
  unfold create_gate_level_diagram
  simp only [processGates, Option.getD_some, hne, Bool.false_eq_true, if_false]
  have h1 : (("and".toList).map Char.toUpper) = "AND".toList := by decide
  rw [h1]
  have h2 : gateIdStr 0 ("AND".toList) = "gate_0_and".toList := by decide
  rw [h2]
  simp [List.append_assoc]

theorem filter_kind_map_const {L : List Str} {k k' : NodeKind}
    (h : (k == k') = false) :
    ((L.map (fun p => (⟨p, p, k⟩ : DNode))).filter
      (fun nd => nd.kind == k')) = [] := by
  apply List.filter_eq_nil_iff.2
  rintro nd hnd
  rw [List.mem_map] at hnd
  obtain ⟨p, _, rfl⟩ := hnd
  simp [h]

/-- Claim C6 amended: for the netlist with gates
`[{type: and, output: y, inputs: [a, b]}]` (wire names distinct from the
synthesized gate id `gate_0_and` and a truthy output name), the renderer
emits exactly one gate node, labeled `AND`; exactly the two edges from `a`
and `b` into it and the one edge out to `y`; and `a` (resp. `b`) has an
input-group node iff it is a declared input, and a junction node iff it is
neither a declared input nor a declared output nor the gate's own output
`y` (a declared output gets an output-group node instead; a wire equal to
`y` gets no node statement of its own). -/
theorem c6_amended_family (I O : List Str) (a b y : Str)
    (hy : y ≠ []) (ha : a ≠ "gate_0_and".toList) (hb : b ≠ "gate_0_and".toList)
    (hyg : y ≠ "gate_0_and".toList) :
    let d := create_gate_level_diagram
      ⟨none, I, O, [⟨some ("and".toList), some y, [a, b]⟩]⟩
    ((d.nodes.filter (fun nd => nd.kind == NodeKind.gateNode)).map
        (fun nd => (nd.id, nd.label)) = [("gate_0_and".toList, "AND".toList)]) ∧
    d.edges = [("gate_0_and".toList, y), (a, "gate_0_and".toList),
      (b, "gate_0_and".toList)] ∧
    (d.edges.filter (fun e => e.2 == "gate_0_and".toList)).length = 2 ∧
    d.edges.filter (fun e => e.1 == "gate_0_and".toList) =
      [("gate_0_and".toList, y)] ∧
    ((∃ nd ∈ d.nodes, nd.id = a ∧ nd.kind = NodeKind.inputPort) ↔ a ∈ I) ∧
    ((∃ nd ∈ d.nodes, nd.id = a ∧ nd.kind = NodeKind.junction) ↔
      (a ∉ I ∧ a ∉ O ∧ a ≠ y)) ∧
    ((∃ nd ∈ d.nodes, nd.id = b ∧ nd.kind = NodeKind.inputPort) ↔ b ∈ I) ∧
    ((∃ nd ∈ d.nodes, nd.id = b ∧ nd.kind = NodeKind.junction) ↔
      (b ∉ I ∧ b ∉ O ∧ b ≠ y)) := by
  intro d
  have hd : d = create_gate_level_diagram
      ⟨none, I, O, [⟨some ("and".toList), some y, [a, b]⟩]⟩ := rfl
  rw [c6_compute I O a b y hy] at hd
  have hinp : ∀ w : Str,
      ((∃ nd ∈ d.nodes, nd.id = w ∧ nd.kind = NodeKind.inputPort) ↔ w ∈ I) := by
    intro w
    rw [hd]
    simp only [junctionNodes, List.mem_append, List.mem_map, List.mem_filter,
      List.mem_singleton]
    constructor
    · rintro ⟨nd, hmem, hid, hkind⟩
      rcases hmem with ⟨p, hp, rfl⟩ | ⟨p, hp, rfl⟩ | rfl | ⟨p, hp, rfl⟩
      · simp only at hid; subst hid; exact hp
      · exact absurd hkind (by simp)
      · exact absurd hkind (by simp)
      · exact absurd hkind (by simp)
    · intro hw
      exact ⟨⟨w, w, NodeKind.inputPort⟩, Or.inl ⟨w, hw, rfl⟩, rfl, rfl⟩
  have hjun : ∀ w : Str, w ∈ [a, b] →
      ((∃ nd ∈ d.nodes, nd.id = w ∧ nd.kind = NodeKind.junction) ↔
        (w ∉ I ∧ w ∉ O ∧ w ≠ y)) := by
    intro w hw
    rw [hd]
    simp only [junctionNodes, List.mem_append, List.mem_map, List.mem_filter,
      List.mem_singleton]
    constructor
    · rintro ⟨nd, hmem, hid, hkind⟩
      rcases hmem with ⟨p, hp, rfl⟩ | ⟨p, hp, rfl⟩ | rfl | ⟨p, ⟨hpm, hpc⟩, rfl⟩
      · exact absurd hkind (by simp)
      · exact absurd hkind (by simp)
      · exact absurd hkind (by simp)
      · simp only at hid
        subst hid
        simp only [Bool.and_eq_true, Bool.not_eq_true', List.any_eq_false] at hpc
        obtain ⟨⟨h1, h2⟩, h3⟩ := hpc
        have h4 := h3 ⟨some ("and".toList), some y, [a, b]⟩ (List.mem_singleton.2 rfl)
        simp only [List.contains] at h1 h2
        refine ⟨?_, ?_, ?_⟩
        · intro hmem
          have hmem2 := List.elem_iff.2 hmem
          rw [h1] at hmem2
          cases hmem2
        · intro hmem
          have hmem2 := List.elem_iff.2 hmem
          rw [h2] at hmem2
          cases hmem2
        · intro heq; simp at h4; exact h4 heq.symm
    · rintro ⟨h1, h2, h3⟩
      refine ⟨⟨w, w, NodeKind.junction⟩, ?_, rfl, rfl⟩
      right; right; right
      refine ⟨w, ⟨?_, ?_⟩, rfl⟩
      · rw [mem_foldl_dedupAdd]
        exact Or.inr hw
      · simp
        exact ⟨⟨h1, h2⟩, fun he => absurd he.symm h3⟩
  refine ⟨?_, ?_, ?_, ?_, hinp a, hjun a (by simp), hinp b, hjun b (by simp)⟩
  · rw [hd]
    simp only [List.filter_append]
    rw [filter_kind_map_const (by decide), filter_kind_map_const (by decide)]
    unfold junctionNodes
    rw [filter_kind_map_const (by decide)]
    simp
  · rw [hd]
  · rw [hd]
    have hy2 : (y == ['g','a','t','e','_','0','_','a','n','d']) = false :=
      beq_eq_false_iff_ne.2 hyg
    have ha2 : (a == ['g','a','t','e','_','0','_','a','n','d']) = false :=
      beq_eq_false_iff_ne.2 ha
    have hb2 : (b == ['g','a','t','e','_','0','_','a','n','d']) = false :=
      beq_eq_false_iff_ne.2 hb
    simp [List.filter, hy2, ha2, hb2]
  · rw [hd]
    have hy2 : (y == ['g','a','t','e','_','0','_','a','n','d']) = false :=
      beq_eq_false_iff_ne.2 hyg
    have ha2 : (a == ['g','a','t','e','_','0','_','a','n','d']) = false :=
      beq_eq_false_iff_ne.2 ha
    have hb2 : (b == ['g','a','t','e','_','0','_','a','n','d']) = false :=
      beq_eq_false_iff_ne.2 hb
    simp [List.filter, hy2, ha2, hb2]


/-- Claim C6 counterexample: with `I = []`, `O = ["a"]` and the gate
`{type: and, output: y, inputs: [a, b]}`, the wire `a` is not a declared
input, yet it is rendered as an output-group node, not as a junction node,
refuting the claim's "otherwise as an unlabeled junction node". -/
theorem c6_counterexample :
    ((create_gate_level_diagram ⟨none, [], [['a']],
        [⟨some ("and".toList), some ['y'], [['a'], ['b']]⟩]⟩).nodes.filter
      (fun nd => nd.id == ['a'] && nd.kind == NodeKind.junction)) = [] ∧
    ((create_gate_level_diagram ⟨none, [], [['a']],
        [⟨some ("and".toList), some ['y'], [['a'], ['b']]⟩]⟩).nodes.filter
      (fun nd => nd.id == ['a'] && nd.kind == NodeKind.outputPort)).length = 1 ∧
    (['a'] : Str) ∉ ([] : List Str) := by decide

theorem c6_amended_family_witness :
    let d := create_gate_level_diagram
      ⟨none, [['a']], [['y']], [⟨some ("and".toList), some ['y'], [['a'], ['b']]⟩]⟩
    ((d.nodes.filter (fun nd => nd.kind == NodeKind.gateNode)).map
        (fun nd => (nd.id, nd.label)) = [("gate_0_and".toList, "AND".toList)]) ∧
    d.edges = [("gate_0_and".toList, ['y']), (['a'], "gate_0_and".toList),
      (['b'], "gate_0_and".toList)] ∧
    (d.edges.filter (fun e => e.2 == "gate_0_and".toList)).length = 2 ∧
    d.edges.filter (fun e => e.1 == "gate_0_and".toList) =
      [("gate_0_and".toList, ['y'])] ∧
    ((∃ nd ∈ d.nodes, nd.id = ['a'] ∧ nd.kind = NodeKind.inputPort) ↔ ['a'] ∈ [['a']]) ∧
    ((∃ nd ∈ d.nodes, nd.id = ['a'] ∧ nd.kind = NodeKind.junction) ↔
      (['a'] ∉ [['a']] ∧ ['a'] ∉ [['y']] ∧ ['a'] ≠ ['y'])) ∧
    ((∃ nd ∈ d.nodes, nd.id = ['b'] ∧ nd.kind = NodeKind.inputPort) ↔ ['b'] ∈ [['a']]) ∧
    ((∃ nd ∈ d.nodes, nd.id = ['b'] ∧ nd.kind = NodeKind.junction) ↔
      (['b'] ∉ [['a']] ∧ ['b'] ∉ [['y']] ∧ ['b'] ≠ ['y'])) :=
  c6_amended_family [['a']] [['y']] ['a'] ['b'] ['y']
    (by decide) (by decide) (by decide) (by decide)

/-! ## Claim C8: duplicate wire references -/

theorem nodup_dedupAdd {s : List Str} {x : Str} (h : s.Nodup) :
    (dedupAdd s x).Nodup := by
  unfold dedupAdd
  split
  · exact h
  · rw [List.nodup_append]
    refine ⟨h, List.nodup_singleton x, ?_⟩
    intro a ha hb
    rw [List.mem_singleton] at hb
    subst hb
    exact absurd ha (by assumption)

theorem nodup_foldl_dedupAdd {l : List Str} : ∀ {s : List Str}, s.Nodup →
    (l.foldl dedupAdd s).Nodup := by
  induction l with
  | nil => intro s h; exact h
  | cons c t ih =>
    intro s h
    rw [List.foldl_cons]
    exact ih (nodup_dedupAdd h)

theorem processGates_all_nodup : ∀ (gs : List Gate) (i : Nat) {all : List Str},
    all.Nodup → ((processGates gs i all).2.2).Nodup := by
  intro gs
  induction gs with
  | nil => intro i all h; exact h
  | cons g t ih =>
    intro i all h
    simp only [processGates]
    apply ih
    apply nodup_foldl_dedupAdd
    cases ho : g.out with
    | none => exact h
    | some o =>
      by_cases he : o.isEmpty
      · simp only [he, if_pos]; exact h
      · simp only [he]
        simp only [Bool.false_eq_true, if_false]
        exact nodup_dedupAdd h

theorem processGates_all_mono {w : Str} : ∀ (gs : List Gate) (i : Nat)
    {all : List Str}, w ∈ all → w ∈ (processGates gs i all).2.2 := by
  intro gs
  induction gs with
  | nil => intro i all h; exact h
  | cons g t ih =>
    intro i all h
    simp only [processGates]
    apply ih
    rw [mem_foldl_dedupAdd]
    left
    cases ho : g.out with
    | none => exact h
    | some o =>
      by_cases he : o.isEmpty
      · simp only [he, if_pos]; exact h
      · simp only [he, Bool.false_eq_true, if_false]
        rw [mem_dedupAdd]
        exact Or.inl h

theorem processGates_all_mem_of_ins {w : Str} : ∀ (gs : List Gate) (i : Nat)
    (all : List Str), (∃ g ∈ gs, w ∈ g.ins) →
    w ∈ (processGates gs i all).2.2 := by
  intro gs
  induction gs with
  | nil => rintro i all ⟨g, hg, _⟩; exact absurd hg (List.not_mem_nil g)
  | cons g t ih =>
    rintro i all ⟨g', hg', hw⟩
    rcases List.mem_cons.1 hg' with rfl | h2
    · simp only [processGates]
      apply processGates_all_mono
      rw [mem_foldl_dedupAdd]
      exact Or.inr hw
    · simp only [processGates]
      exact ih _ _ ⟨g', h2, hw⟩

theorem gateIdStr_has_gate_pre (i : Nat) (gt : Str) :
    (['g','a','t','e','_'] : Str).isPrefixOf (gateIdStr i gt) = true := by
  rw [ List.isPrefixOf_iff_prefix]
  exact List.prefix_append _ _

theorem ne_gateIdStr_of_not_pre {w : Str}
    (h : ¬ (['g','a','t','e','_'] : Str).isPrefixOf w = true) (i : Nat) (gt : Str) :
    w ≠ gateIdStr i gt :=
  fun he => h (he ▸ gateIdStr_has_gate_pre i gt)

theorem processGates_edges_src {w : Str}
    (hw : ∀ (i : Nat) (gt : Str), w ≠ gateIdStr i gt) :
    ∀ (gs : List Gate) (i : Nat) (all : List Str),
      (((processGates gs i all).2.1).filter (fun e => e.1 == w)).length =
        (gs.map (fun g => (g.ins.filter (fun x => x == w)).length)).sum := by
  intro gs
  induction gs with
  | nil => intro i all; simp [processGates]
  | cons g t ih =>
    intro i all
    simp only [processGates, List.map_cons, List.sum_cons]
    rw [List.filter_append, List.filter_append, List.length_append,
      List.length_append]
    have hout : (((match g.out with
        | some o => if o.isEmpty = true then (([] : List (Str × Str)), all)
            else ([(gateIdStr i ((g.typ.getD kwGate).map Char.toUpper), o)],
              dedupAdd all o)
        | none => (([] : List (Str × Str)), all)) :
          List (Str × Str) × List Str).1.filter
          (fun (e : Str × Str) => e.1 == w)).length = 0 := by
      cases ho : g.out with
      | none => rfl
      | some o =>
        by_cases he : o.isEmpty
        · simp [he]
        · simp only [he, Bool.false_eq_true, if_false]
          have hne : (gateIdStr i ((g.typ.getD kwGate).map Char.toUpper) == w) = false :=
            beq_eq_false_iff_ne.2 (fun x => hw _ _ x.symm)
          simp [List.filter, hne]
    rw [hout]
    have hin : ((g.ins.map (fun x => (x,
        gateIdStr i ((g.typ.getD kwGate).map Char.toUpper)))).filter
          (fun (e : Str × Str) => e.1 == w)).length =
        (g.ins.filter (fun x => x == w)).length := by
      rw [List.filter_map]
      rw [List.length_map]
      rfl
    rw [hin, ih]
    omega

theorem processGates_nodes_id {w : Str}
    (hw : ∀ (i : Nat) (gt : Str), w ≠ gateIdStr i gt) :
    ∀ (gs : List Gate) (i : Nat) (all : List Str),
      ((processGates gs i all).1).filter (fun nd => nd.id == w) = [] := by
  intro gs
  induction gs with
  | nil => intro i all; rfl
  | cons g t ih =>
    intro i all
    simp only [processGates]
    rw [List.filter_cons]
    have hne : ((gateIdStr i ((g.typ.getD kwGate).map Char.toUpper) : Str) == w) = false :=
      beq_eq_false_iff_ne.2 (fun x => hw _ _ x.symm)
    simp only [hne, Bool.false_eq_true, if_false]
    exact ih _ _

theorem filter_id_map_port {L : List Str} {w : Str} {k : NodeKind} (h : w ∉ L) :
    ((L.map (fun p => (⟨p, p, k⟩ : DNode))).filter (fun nd => nd.id == w)) = [] := by
  apply List.filter_eq_nil_iff.2
  rintro nd hnd
  rw [List.mem_map] at hnd
  obtain ⟨p, hp, rfl⟩ := hnd
  simp only [beq_iff_eq]
  intro he
  exact h (he ▸ hp)

theorem filter_beq_length {l : List Str} {w : Str} (h : l.Nodup) :
    (l.filter (fun x => x == w)).length = if w ∈ l then 1 else 0 := by
  induction l with
  | nil => simp
  | cons c t ih =>
    rw [List.nodup_cons] at h
    rw [List.filter_cons]
    by_cases hc : c = w
    · subst hc
      simp only [beq_self_eq_true, if_pos]
      rw [List.length_cons, ih h.2, if_neg h.1, if_pos (List.mem_cons_self _ _)]
    · rw [if_neg (by simp [hc]), ih h.2]
      by_cases hw : w ∈ t
      · rw [if_pos hw, if_pos (List.mem_cons_of_mem _ hw)]
      · rw [if_neg hw, if_neg (by
          rw [List.mem_cons]
          rintro (rfl | hmem)
          · exact hc rfl
          · exact hw hmem)]

theorem junction_filter_id {n : Netlist} {all : List Str} {w : Str}
    (hnd : all.Nodup) :
    ((junctionNodes n all).filter (fun nd => nd.id == w)).length =
      if w ∈ all ∧ (!(n.inputs.contains w) && !(n.outputs.contains w) &&
          !(n.gates.any (fun g => g.out == some w))) = true then 1 else 0 := by
  unfold junctionNodes
  rw [List.filter_map, List.length_map]
  have hcomp : ((fun nd => nd.id == w) ∘ fun w' => (⟨w', w', .junction⟩ : DNode)) =
      fun w' => w' == w := rfl
  rw [hcomp, filter_beq_length (List.Nodup.filter _ hnd)]
  simp only [List.mem_filter]

theorem create_err_none (I O : List Str) (G : List Gate) :
    create_gate_level_diagram ⟨none, I, O, G⟩ =
      ⟨(I.map (fun p => (⟨p, p, .inputPort⟩ : DNode))) ++
        ((O.map (fun p => (⟨p, p, .outputPort⟩ : DNode))) ++
         ((processGates G 0 (O.foldl dedupAdd (I.foldl dedupAdd []))).1 ++
          junctionNodes ⟨none, I, O, G⟩
            ((processGates G 0 (O.foldl dedupAdd (I.foldl dedupAdd []))).2.2))),
       (processGates G 0 (O.foldl dedupAdd (I.foldl dedupAdd []))).2.1⟩ := by
  unfold create_gate_level_diagram
  simp [List.append_assoc]

/-- Claim C8: in a well-formed netlist (no error key), for a wire `w` that
is not shaped like a synthesized gate id: (i) the diagram records one
source-`w` edge entry per occurrence of `w` among any gate's inputs
(duplicate references by different gates accumulate distinct edge
entries, never merged); (ii) if `w` is not a declared input or output, at
most one node statement carries the id `w` (duplicate references never
create duplicate nodes); and (iii) exactly one when `w` is referenced as
some gate's input and no gate drives it. -/
theorem c8_shared_wire_nodes_edges (n : Netlist) (w : Str)
    (herr : n.err = none)
    (hpre : ¬ (['g','a','t','e','_'] : Str).isPrefixOf w = true) :
    (((create_gate_level_diagram n).edges.filter
        (fun e => e.1 == w)).length =
      (n.gates.map (fun g => (g.ins.filter (fun x => x == w)).length)).sum) ∧
    (w ∉ n.inputs → w ∉ n.outputs →
      ((create_gate_level_diagram n).nodes.filter
        (fun nd => nd.id == w)).length ≤ 1) ∧
    (w ∉ n.inputs → w ∉ n.outputs → (∃ g ∈ n.gates, w ∈ g.ins) →
      (∀ g ∈ n.gates, ¬ g.out = some w) →
      ((create_gate_level_diagram n).nodes.filter
        (fun nd => nd.id == w)).length = 1) := by
  obtain ⟨err, I, O, G⟩ := n
  simp only at herr
  subst herr
  have hw := ne_gateIdStr_of_not_pre hpre
  have hnd : ((processGates G 0 (O.foldl dedupAdd (I.foldl dedupAdd []))).2.2).Nodup :=
    processGates_all_nodup G 0
      (nodup_foldl_dedupAdd (nodup_foldl_dedupAdd List.nodup_nil))
  refine ⟨?_, ?_, ?_⟩
  · rw [create_err_none]
    exact processGates_edges_src hw G 0 _
  · intro hI hO
    rw [create_err_none]
    simp only [List.filter_append, List.length_append]
    rw [filter_id_map_port hI, filter_id_map_port hO, processGates_nodes_id hw,
      junction_filter_id hnd]
    simp only [List.length_nil]
    split <;> omega
  · intro hI hO hins hout
    rw [create_err_none]
    simp only [List.filter_append, List.length_append]
    rw [filter_id_map_port hI, filter_id_map_port hO, processGates_nodes_id hw,
      junction_filter_id hnd]
    simp only [List.length_nil]
    rw [if_pos]
    refine ⟨processGates_all_mem_of_ins G 0 _ hins, ?_⟩
    simp only [Bool.and_eq_true, Bool.not_eq_true', List.any_eq_false]
    refine ⟨⟨?_, ?_⟩, ?_⟩
    · by_contra hc
      rw [Bool.not_eq_false] at hc
      exact hI (by simpa using hc)
    · by_contra hc
      rw [Bool.not_eq_false] at hc
      exact hO (by simpa using hc)
    · intro g hg
      have := hout g hg
      simp [this]

theorem c8_shared_wire_nodes_edges_witness :
    (((create_gate_level_diagram ⟨none, [], [],
        [⟨some ("and".toList), some ['y'], [['x']]⟩,
         ⟨some ("or".toList), some ['z'], [['x']]⟩]⟩).edges.filter
        (fun e => e.1 == ['x'])).length =
      ([⟨some ("and".toList), some ['y'], [['x']]⟩,
        (⟨some ("or".toList), some ['z'], [['x']]⟩ : Gate)].map
          (fun g => (g.ins.filter (fun x => x == ['x'])).length)).sum) ∧
    ((create_gate_level_diagram ⟨none, [], [],
        [⟨some ("and".toList), some ['y'], [['x']]⟩,
         ⟨some ("or".toList), some ['z'], [['x']]⟩]⟩).nodes.filter
        (fun nd => nd.id == ['x'])).length = 1 := by
  have h := c8_shared_wire_nodes_edges ⟨none, [], [],
    [⟨some ("and".toList), some ['y'], [['x']]⟩,
     ⟨some ("or".toList), some ['z'], [['x']]⟩]⟩ ['x'] rfl (by decide)
  exact ⟨h.1, h.2.2 (by decide) (by decide)
    ⟨⟨some ("and".toList), some ['y'], [['x']]⟩, by decide, by decide⟩
    (by decide)⟩

/-! ## Claim C1: the Module Extractor sentinel -/

theorem isPrefixOf_iff_append {p q : Str} :
    p.isPrefixOf q = true ↔ ∃ t, q = p ++ t := by
  rw [ List.isPrefixOf_iff_prefix]
  exact ⟨fun ⟨t, ht⟩ => ⟨t, ht.symm⟩, fun ⟨t, ht⟩ => ⟨t, ht.symm⟩⟩

theorem tw_append_all {p : Char → Bool} {x : Str} (y : Str) (h : x.all p = true) :
    (x ++ y).takeWhile p = x ++ y.takeWhile p := by
  induction x with
  | nil => rfl
  | cons c t ih =>
    simp only [List.all_cons, Bool.and_eq_true] at h
    rw [List.cons_append, List.takeWhile_cons, if_pos h.1, ih h.2, List.cons_append]

theorem takeWhile_all {p : Char → Bool} (l : Str) :
    (l.takeWhile p).all p = true := by
  induction l with
  | nil => rfl
  | cons c t ih =>
    rw [List.takeWhile_cons]
    split
    · simp only [List.all_cons, Bool.and_eq_true]
      exact ⟨by assumption, ih⟩
    · rfl

theorem take_all_of_le_takeWhile {p : Char → Bool} :
    ∀ (l : Str) (k : Nat), k ≤ (l.takeWhile p).length →
      ((l.take k).all p) = true := by
  intro l
  induction l with
  | nil => intro k hk; simp
  | cons c t ih =>
    intro k hk
    rw [List.takeWhile_cons] at hk
    cases k with
    | zero => rfl
    | succ k =>
      split at hk
      · rw [List.take_succ_cons, List.all_cons, Bool.and_eq_true]
        refine ⟨by assumption, ih k ?_⟩
        simpa using hk
      · simp at hk

theorem findSub_some_decomp {pat : Str} :
    ∀ {l : Str} {j : Nat}, findSub pat l = some j →
      ∃ a b, l = a ++ (pat ++ b) := by
  intro l
  induction l with
  | nil =>
    intro j h
    unfold findSub at h
    split at h
    · exact ⟨[], [], by simp_all [List.isEmpty_iff]⟩
    · cases h
  | cons c ls ih =>
    intro j h
    unfold findSub at h
    split at h
    · obtain ⟨t, ht⟩ := isPrefixOf_iff_append.1 (by assumption)
      exact ⟨[], t, by simp [ht]⟩
    · rw [Option.map_eq_some'] at h
      obtain ⟨j', hj', _⟩ := h
      obtain ⟨a, b, hab⟩ := ih hj'
      exact ⟨c :: a, b, by simp [hab]⟩

theorem findSub_ne_none {pat : Str} :
    ∀ (a : Str) {l b : Str}, l = a ++ (pat ++ b) → findSub pat l ≠ none := by
  intro a
  induction a with
  | nil =>
    intro l b h
    simp only [List.nil_append] at h
    subst h
    cases hpb : pat ++ b with
    | nil =>
      have hp : pat.isEmpty = true := by
        cases pat
        · rfl
        · simp at hpb
      simp [findSub, hp]
    | cons x xs =>
      simp only [findSub]
      rw [if_pos (isPrefixOf_iff_append.2 ⟨b, hpb.symm⟩)]
      simp
  | cons c a' ih =>
    intro l b h
    subst h
    rw [List.cons_append]
    unfold findSub
    split
    · simp
    · have := ih (Eq.refl (a' ++ (pat ++ b)))
      cases hfs : findSub pat (a' ++ (pat ++ b)) with
      | none => exact absurd hfs this
      | some j => simp [hfs]

theorem matchNameEndFrom_some_decomp {name t : Str} :
    ∀ (K : Nat) {k : Nat}, matchNameEndFrom name t K = some k →
      ∃ kk a b, 1 ≤ kk ∧ kk ≤ K ∧
        t.drop kk = name ++ (a ++ (kwEndmodule ++ b)) := by
  intro K
  induction K with
  | zero => intro k h; cases h
  | succ K ih =>
    intro k h
    unfold matchNameEndFrom at h
    dsimp only at h
    split at h
    · rename_i hpre
      obtain ⟨t2, ht2⟩ := isPrefixOf_iff_append.1 hpre
      rw [ht2, List.drop_left] at h
      cases hfs : findSub kwEndmodule t2 with
      | some j =>
        obtain ⟨a, b, hab⟩ := findSub_some_decomp hfs
        exact ⟨K + 1, a, b, by omega, le_refl _, by rw [ht2, hab]⟩
      | none =>
        rw [hfs] at h
        obtain ⟨kk, a, b, h1, h2, h3⟩ := ih h
        exact ⟨kk, a, b, h1, by omega, h3⟩
    · obtain ⟨kk, a, b, h1, h2, h3⟩ := ih h
      exact ⟨kk, a, b, h1, by omega, h3⟩

theorem matchNameEndFrom_ne_none {name t : Str} :
    ∀ (K kk : Nat) {a b : Str}, 1 ≤ kk → kk ≤ K →
      t.drop kk = name ++ (a ++ (kwEndmodule ++ b)) →
      matchNameEndFrom name t K ≠ none := by
  intro K
  induction K with
  | zero => intro kk a b h1 h2; omega
  | succ K ih =>
    intro kk a b h1 h2 h3
    unfold matchNameEndFrom
    dsimp only
    split
    · rename_i hpre
      cases hfs : findSub kwEndmodule ((t.drop (K + 1)).drop name.length) with
      | some j => simp [hfs]
      | none =>
        show matchNameEndFrom name t K ≠ none
        by_cases hkk : kk = K + 1
        · subst hkk
          rw [h3, List.drop_left] at hfs
          exact absurd hfs (findSub_ne_none a rfl)
        · exact ih kk h1 (by omega) h3
    · rename_i hpre
      by_cases hkk : kk = K + 1
      · subst hkk
        exact absurd (isPrefixOf_iff_append.2 ⟨_, h3⟩) hpre
      · exact ih kk h1 (by omega) h3

theorem length_takeWhile_le (p : Char → Bool) (l : Str) :
    (l.takeWhile p).length ≤ l.length :=
  List.IsPrefix.length_le ( List.takeWhile_prefix p)

theorem matchCodeAt_ne_none_iff {name l : Str} :
    matchCodeAt name l ≠ none ↔ SufMatchCode name l := by
  constructor
  · intro h
    unfold matchCodeAt at h
    dsimp only at h
    split at h
    · rename_i hpre
      obtain ⟨t0, ht0⟩ : l.takeWhile isSpaceC <+: l := List.takeWhile_prefix isSpaceC
      have hl1 : l.drop ((l.takeWhile isSpaceC).length) = t0 := by
        nth_rewrite 2 [← ht0]
        exact List.drop_left _ _
      rw [hl1] at hpre h
      obtain ⟨t1, ht1⟩ := isPrefixOf_iff_append.1 hpre
      have ht1' : t0.drop 6 = t1 := by
        rw [ht1]
        exact List.drop_left kwModule t1
      rw [ht1'] at h
      cases hm : matchNameEndFrom name t1 ((t1.takeWhile isSpaceC).length) with
      | none => rw [hm] at h; exact absurd rfl h
      | some k =>
        obtain ⟨kk, a, b, hk1, hk2, hdec⟩ := matchNameEndFrom_some_decomp _ hm
        have hkk_le : kk ≤ t1.length :=
          le_trans hk2 (length_takeWhile_le isSpaceC t1)
        refine ⟨l.takeWhile isSpaceC, t1.take kk, a, b, ?_, ?_, ?_, ?_⟩
        · have hsplit : t1 = t1.take kk ++ (name ++ (a ++ (kwEndmodule ++ b))) := by
            rw [← hdec, List.take_append_drop]
          nth_rewrite 1 [← ht0]
          rw [← hsplit, ← ht1]
        · exact takeWhile_all l
        · exact take_all_of_le_takeWhile t1 kk hk2
        · have : (t1.take kk).length = kk := by
            rw [List.length_take]
            omega
          intro hnil
          rw [hnil] at this
          simp at this
          omega
    · exact absurd rfl h
  · rintro ⟨w1, w2, mid, post, hl, hw1, hw2, hw2ne⟩
    unfold matchCodeAt
    dsimp only
    have htw : l.takeWhile isSpaceC = w1 := by
      rw [hl, tw_append_all _ hw1]
      have : (kwModule ++ (w2 ++ (name ++ (mid ++ (kwEndmodule ++ post))))).takeWhile
          isSpaceC = [] := by
        rw [show kwModule ++ (w2 ++ (name ++ (mid ++ (kwEndmodule ++ post)))) =
          'm' :: ('o' :: 'd' :: 'u' :: 'l' :: 'e' ::
            (w2 ++ (name ++ (mid ++ (kwEndmodule ++ post))))) from rfl]
        rw [List.takeWhile_cons, if_neg (by decide)]
      rw [this, List.append_nil]
    have hdrop : l.drop ((l.takeWhile isSpaceC).length) =
        kwModule ++ (w2 ++ (name ++ (mid ++ (kwEndmodule ++ post)))) := by
      rw [htw, hl, List.drop_left]
    rw [hdrop]
    rw [if_pos (isPrefixOf_iff_append.2 ⟨_, rfl⟩)]
    have h6 : (kwModule ++ (w2 ++ (name ++ (mid ++ (kwEndmodule ++ post))))).drop 6 =
        w2 ++ (name ++ (mid ++ (kwEndmodule ++ post))) :=
      List.drop_left kwModule _
    rw [h6]
    have hKge : w2.length ≤ ((w2 ++ (name ++ (mid ++ (kwEndmodule ++ post)))).takeWhile
        isSpaceC).length := by
      rw [tw_append_all _ hw2]
      simp
    have hne : matchNameEndFrom name (w2 ++ (name ++ (mid ++ (kwEndmodule ++ post))))
        ((w2 ++ (name ++ (mid ++ (kwEndmodule ++ post)))).takeWhile isSpaceC).length ≠
        none :=
      matchNameEndFrom_ne_none
        ((w2 ++ (name ++ (mid ++ (kwEndmodule ++ post)))).takeWhile isSpaceC).length
        w2.length
        (by
          cases w2 with
          | nil => exact absurd rfl hw2ne
          | cons x xs => simp)
        hKge (List.drop_left w2 _)
    cases hmm : matchNameEndFrom name (w2 ++ (name ++ (mid ++ (kwEndmodule ++ post))))
        ((w2 ++ (name ++ (mid ++ (kwEndmodule ++ post)))).takeWhile isSpaceC).length with
    | none => exact absurd hmm hne
    | some k => simp [hmm]

theorem matchCodeAt_nil {name : Str} : matchCodeAt name [] = none := rfl

theorem code_pos_step {name : Str} {c : Char} {ls : Str} {b : Bool}
    (hskip : b = true → matchCodeAt name (c :: ls) = none) :
    ((∃ pre suf, c :: ls = pre ++ suf ∧
        ((pre = [] ∧ b = true) ∨ pre.getLast? = some '\n') ∧
        matchCodeAt name suf ≠ none) ↔
      (∃ pre suf, ls = pre ++ suf ∧
        ((pre = [] ∧ (c == '\n') = true) ∨ pre.getLast? = some '\n') ∧
        matchCodeAt name suf ≠ none)) := by
  constructor
  · rintro ⟨pre, suf, hsplit, hpos, hm⟩
    cases pre with
    | nil =>
      rw [List.nil_append] at hsplit
      subst hsplit
      rcases hpos with ⟨_, hb⟩ | hlast
      · exact absurd (hskip hb) hm
      · simp at hlast
    | cons c' pre' =>
      rw [List.cons_append] at hsplit
      injection hsplit with hc hls
      subst hc
      refine ⟨pre', suf, hls, ?_, hm⟩
      rcases hpos with ⟨hnil, _⟩ | hlast
      · simp at hnil
      · cases pre' with
        | nil =>
          left
          refine ⟨rfl, ?_⟩
          have : c = '\n' := by simpa using hlast
          simp [this]
        | cons d pre'' =>
          right
          rwa [List.getLast?_cons_cons] at hlast
  · rintro ⟨pre', suf, hsplit, hpos, hm⟩
    refine ⟨c :: pre', suf, by rw [hsplit, List.cons_append], Or.inr ?_, hm⟩
    rcases hpos with ⟨rfl, hc⟩ | hlast
    · have : c = '\n' := by simpa using hc
      simp [this]
    · cases pre' with
      | nil => simp at hlast
      | cons d pre'' => rw [List.getLast?_cons_cons]; exact hlast

theorem searchCodeAux_none_iff {name : Str} :
    ∀ (l : Str) (b : Bool), searchCodeAux name l b = none ↔
      ¬ ∃ pre suf, l = pre ++ suf ∧
        ((pre = [] ∧ b = true) ∨ pre.getLast? = some '\n') ∧
        matchCodeAt name suf ≠ none := by
  intro l
  induction l with
  | nil =>
    intro b
    constructor
    · rintro _ ⟨pre, suf, hsplit, _, hm⟩
      have hsuf : suf = [] := (List.append_eq_nil.1 hsplit.symm).2
      subst hsuf
      exact hm matchCodeAt_nil
    · intro _
      rfl
  | cons c ls ih =>
    intro b
    cases b with
    | false =>
      have hLHS : searchCodeAux name (c :: ls) false =
          searchCodeAux name ls (c == '\n') := by
        simp [searchCodeAux]
      rw [hLHS, ih]
      exact not_congr (code_pos_step (by simp)).symm
    | true =>
      cases hm : matchCodeAt name (c :: ls) with
      | some k =>
        have hLHS : searchCodeAux name (c :: ls) true = some ((c :: ls).take k) := by
          simp [searchCodeAux, hm]
        rw [hLHS]
        constructor
        · intro h; cases h
        · intro hno
          exact absurd (hno ⟨[], c :: ls, rfl, Or.inl ⟨rfl, rfl⟩, by
            rw [hm]; simp⟩) (by simp)
      | none =>
        have hLHS : searchCodeAux name (c :: ls) true =
            searchCodeAux name ls (c == '\n') := by
          simp [searchCodeAux, hm]
        rw [hLHS, ih]
        exact not_congr (code_pos_step (fun _ => hm)).symm

/-- Claim C1 amended: `get_module_code` returns the sentinel `None` exactly
when no line start of the text is followed by optional whitespace, the
`module` keyword, whitespace, and the requested name *as a literal
prefix* with a later `endmodule`.  The name is not required to end at a
word boundary, so a requested name that is a proper prefix of a declared
module's name is matched and a span is returned rather than the
sentinel. -/
theorem c1_amended_none_iff (name text : Str) :
    get_module_code name text = none ↔ ¬ CodeMatchExists name text := by
  unfold get_module_code
  rw [searchCodeAux_none_iff]
  apply not_congr
  constructor
  · rintro ⟨pre, suf, hsplit, hpos, hm⟩
    obtain ⟨w1, w2, mid, post, hsuf, hw1, hw2, hw2ne⟩ := matchCodeAt_ne_none_iff.1 hm
    refine ⟨pre, w1, w2, mid, post, ?_, ?_, hw1, hw2, hw2ne⟩
    · rw [hsplit, hsuf]
      simp [List.append_assoc]
    · rcases hpos with ⟨h1, _⟩ | h2
      · exact Or.inl h1
      · exact Or.inr h2
  · rintro ⟨pre, w1, w2, mid, post, hsplit, hpos, hw1, hw2, hw2ne⟩
    refine ⟨pre, w1 ++ (kwModule ++ (w2 ++ (name ++ (mid ++ (kwEndmodule ++ post))))),
      ?_, ?_, matchCodeAt_ne_none_iff.2 ⟨w1, w2, mid, post, rfl, hw1, hw2, hw2ne⟩⟩
    · rw [hsplit]
      simp [List.append_assoc]
    · rcases hpos with h1 | h2
      · exact Or.inl ⟨h1, rfl⟩
      · exact Or.inr h2

/-- Claim C1 counterexample: `"m"` is not the name of any declared module
of `"module mm endmodule"` (the Module Locator lists only `"mm"`), yet
`get_module_code` returns a span rather than the `None` sentinel, by
matching the requested name as a prefix of the longer name `"mm"`. -/
theorem c1_counterexample :
    get_module_names ("module mm endmodule".toList) = ["mm".toList] ∧
    ("m".toList) ∉ get_module_names ("module mm endmodule".toList) ∧
    get_module_code ("m".toList) ("module mm endmodule".toList) =
      some ("module mm endmodule".toList) := by decide

/-! ## Claim C4: the Module Locator, line by line -/

theorem matchDecl_consumes {l : Str} {nm r : Str}
    (h : matchDecl l = some (nm, r)) : r.length < l.length := by
  unfold matchDecl at h
  dsimp only at h
  split at h
  · rename_i hpre
    split at h
    · cases h
    · rename_i hcond
      injection h with h'
      injection h' with hnm hr
      push_neg at hcond
      obtain ⟨hlen, hnm_ne⟩ := hcond
      obtain ⟨t0, ht0⟩ := isPrefixOf_iff_append.1 hpre
      have e1 : (l.dropWhile isSpaceC).length ≤ l.length := length_dropWhile_le _ _
      have e2 : 6 ≤ (l.dropWhile isSpaceC).length := by
        rw [ht0]; simp [kwModule]
      have e3 : ((l.dropWhile isSpaceC).drop 6).length =
          (l.dropWhile isSpaceC).length - 6 := by simp
      have e4 : (((l.dropWhile isSpaceC).drop 6).dropWhile isSpaceC).length ≤
          ((l.dropWhile isSpaceC).drop 6).length := length_dropWhile_le _ _
      have e5 : (((l.dropWhile isSpaceC).drop 6).dropWhile isSpaceC).length ≠
          ((l.dropWhile isSpaceC).drop 6).length := hlen
      have e6 : 1 ≤ nm.length := by
        cases hn : nm with
        | nil => rw [← hnm] at hn; exact absurd hn hnm_ne
        | cons a b => simp
      have e7 : r.length =
          (((l.dropWhile isSpaceC).drop 6).dropWhile isSpaceC).length - nm.length := by
        rw [← hr]
        simp
        rw [hnm]
      nth_rewrite 1 [← hnm] at e6
      have e8 : nm.length ≤
          (((l.dropWhile isSpaceC).drop 6).dropWhile isSpaceC).length := by
        rw [← hnm]
        exact length_takeWhile_le _ _
      omega
  · cases h

theorem scanDeclsAux_stable :
    ∀ (f : Nat) (l : Str) (b : Bool), l.length ≤ f →
      scanDeclsAux f l b = scanDeclsAux l.length l b := by
  intro f
  induction f using Nat.strong_induction_on with
  | _ f ih =>
    intro l b hf
    match f, l with
    | 0, l =>
      have : l = [] := by
        cases l with
        | nil => rfl
        | cons c ls => simp at hf
      subst this
      rfl
    | f + 1, [] => rfl
    | f + 1, c :: ls =>
      simp only [List.length_cons] at hf
      have hstep : scanDeclsAux f ls (c == '\n') =
          scanDeclsAux ls.length ls (c == '\n') :=
        ih f (by omega) ls (c == '\n') (by simp at hf; omega)
      simp only [scanDeclsAux, List.length_cons]
      by_cases hb : b = true
      · rw [if_pos hb, if_pos hb]
        cases hm : matchDecl (c :: ls) with
        | some p =>
          obtain ⟨nm, r⟩ := p
          have hr := matchDecl_consumes hm
          simp only [List.length_cons] at hr
          have h1 : scanDeclsAux f r false = scanDeclsAux r.length r false :=
            ih f (by omega) r false (by simp at hf; omega)
          have h2 : scanDeclsAux ls.length r false = scanDeclsAux r.length r false :=
            ih ls.length (by omega) r false (by omega)
          dsimp only
          rw [h1, h2]
        | none => dsimp only; exact hstep
      · rw [if_neg hb, if_neg hb]
        exact hstep

theorem scanD_nil (b : Bool) : scanD [] b = [] := rfl

theorem scanD_cons_false (c : Char) (ls : Str) :
    scanD (c :: ls) false = scanD ls (c == '\n') := rfl

theorem scanD_cons_true (c : Char) (ls : Str) :
    scanD (c :: ls) true =
      match matchDecl (c :: ls) with
      | some (nm, r) => nm :: scanD r false
      | none => scanD ls (c == '\n') := by
  show scanDeclsAux (ls.length + 1) (c :: ls) true = _
  simp only [scanDeclsAux, if_pos]
  cases hm : matchDecl (c :: ls) with
  | some p =>
    obtain ⟨nm, r⟩ := p
    have hr := matchDecl_consumes hm
    simp only [List.length_cons] at hr
    dsimp only
    rw [scanDeclsAux_stable ls.length r false (by omega)]
    rfl
  | none => rfl

theorem scanD_walk_to_nl {u : Str} : ∀ (x : Str), '\n' ∉ x →
    scanD (x ++ '\n' :: u) false = scanD u true := by
  intro x
  induction x with
  | nil =>
    intro _
    rw [List.nil_append, scanD_cons_false]
    simp
  | cons c x' ih =>
    intro hnl
    rw [List.cons_append, scanD_cons_false]
    have hc : (c == '\n') = false :=
      beq_eq_false_iff_ne.2 (fun h => hnl (h ▸ List.mem_cons_self _ _))
    rw [hc]
    exact ih (fun h => hnl (List.mem_cons_of_mem _ h))

theorem scanD_walk_to_end : ∀ (x : Str), '\n' ∉ x → scanD x false = [] := by
  intro x
  induction x with
  | nil => intro _; rfl
  | cons c x' ih =>
    intro hnl
    rw [scanD_cons_false]
    have hc : (c == '\n') = false :=
      beq_eq_false_iff_ne.2 (fun h => hnl (h ▸ List.mem_cons_self _ _))
    rw [hc]
    exact ih (fun h => hnl (List.mem_cons_of_mem _ h))

theorem matchDecl_absorb_ws {w u : Str} (hw : w.all isSpaceC = true) :
    matchDecl (w ++ u) = matchDecl u := by
  unfold matchDecl
  rw [dropWhile_append_of_all _ hw]

theorem matchDecl_nil : matchDecl [] = none := rfl

theorem scanD_ws_line {x u : Str} (hx : x.all isSpaceC = true) (hnl : '\n' ∉ x) :
    scanD (x ++ '\n' :: u) true = scanD u true := by
  have habs : matchDecl (x ++ '\n' :: u) = matchDecl u := by
    have hsh : x ++ '\n' :: u = (x ++ ['\n']) ++ u := by simp
    rw [hsh, matchDecl_absorb_ws (by
      rw [List.all_append]
      simp [hx]
      decide)]
  cases x with
  | nil =>
    rw [List.nil_append] at habs ⊢
    rw [scanD_cons_true, habs]
    cases hm : matchDecl u with
    | some p =>
      obtain ⟨nm, r⟩ := p
      cases u with
      | nil => rw [matchDecl_nil] at hm; cases hm
      | cons v vs => rw [scanD_cons_true, hm]
    | none =>
      dsimp only
      have : ('\n' == '\n') = true := by decide
      rw [this]
  | cons c x' =>
    rw [List.cons_append] at habs ⊢
    rw [scanD_cons_true, habs]
    cases hm : matchDecl u with
    | some p =>
      obtain ⟨nm, r⟩ := p
      cases u with
      | nil => rw [matchDecl_nil] at hm; cases hm
      | cons v vs => rw [scanD_cons_true, hm]
    | none =>
      dsimp only
      have hc : (c == '\n') = false :=
        beq_eq_false_iff_ne.2 (fun h => hnl (h ▸ List.mem_cons_self _ _))
      rw [hc]
      exact scanD_walk_to_nl x' (fun h => hnl (List.mem_cons_of_mem _ h))

theorem scanD_ws_last {x : Str} (hx : x.all isSpaceC = true) (hnl : '\n' ∉ x) :
    scanD x true = [] := by
  cases x with
  | nil => rfl
  | cons c x' =>
    have habs : matchDecl (c :: x') = none := by
      have h0 : matchDecl ((c :: x') ++ []) = matchDecl [] := matchDecl_absorb_ws hx
      rw [List.append_nil, matchDecl_nil] at h0
      exact h0
    rw [scanD_cons_true, habs]
    dsimp only
    have hc : (c == '\n') = false :=
      beq_eq_false_iff_ne.2 (fun h => hnl (h ▸ List.mem_cons_self _ _))
    rw [hc]
    exact scanD_walk_to_end x' (fun h => hnl (List.mem_cons_of_mem _ h))

theorem takeWhile_ne_nil_head {p : Char → Bool} {l : Str}
    (h : l.takeWhile p ≠ []) : ∃ d t, l = d :: t ∧ p d = true := by
  cases l with
  | nil => exact absurd rfl h
  | cons d t =>
    refine ⟨d, t, rfl, ?_⟩
    by_contra hd
    rw [List.takeWhile_cons, if_neg hd] at h
    exact h rfl

theorem mem_of_suffix_chain {a : Char} {x y : Str} (h : x <:+ y) (ha : a ∈ x) :
    a ∈ y := List.IsSuffix.subset h ha

theorem matchDecl_line_some {l tail nm : Str}
    (hnl : '\n' ∉ l) (hln : lineName l = some nm)
    (htail : tail = [] ∨ ∃ u, tail = '\n' :: u) :
    ∃ rem, '\n' ∉ rem ∧ matchDecl (l ++ tail) = some (nm, rem ++ tail) := by
  unfold lineName at hln
  dsimp only at hln
  split at hln
  case isFalse => cases hln
  case isTrue hpre =>
  cases hdr : (l.dropWhile isSpaceC).drop 6 with
  | nil => rw [hdr] at hln; cases hln
  | cons c t =>
  rw [hdr] at hln
  dsimp only at hln
  split at hln
  case isFalse => cases hln
  case isTrue hc =>
  split at hln
  case isTrue => cases hln
  case isFalse hnmne =>
  injection hln with hnm
  -- notation
  have hrne : l.dropWhile isSpaceC ≠ [] := by
    intro h0
    rw [h0] at hpre
    simp [kwModule, List.isPrefixOf] at hpre
  have hcwne : ((c :: t).dropWhile isSpaceC).takeWhile isWordC ≠ [] := by
    intro h0
    rw [h0] at hnmne
    exact hnmne rfl
  have hcw_ne : (c :: t).dropWhile isSpaceC ≠ [] := by
    intro h0
    rw [h0] at hcwne
    exact hcwne rfl
  obtain ⟨d0, hd0⟩ := isPrefixOf_iff_append.1 hpre
  have h6 : 6 ≤ (l.dropWhile isSpaceC).length := by
    rw [hd0]
    simp [kwModule]
  -- the dropWhile of the extended text
  have F2 : (l ++ tail).dropWhile isSpaceC = l.dropWhile isSpaceC ++ tail := by
    rw [List.dropWhile_append]
    rw [if_neg (by simp [List.isEmpty_iff, hrne])]
  have F3 : kwModule.isPrefixOf (l.dropWhile isSpaceC ++ tail) = true := by
    apply isPrefixOf_iff_append.2
    exact ⟨d0 ++ tail, by rw [hd0, List.append_assoc]⟩
  have F4 : (l.dropWhile isSpaceC ++ tail).drop 6 = c :: (t ++ tail) := by
    rw [List.drop_append_of_le_length h6, hdr, List.cons_append]
  have F5 : (c :: (t ++ tail)).dropWhile isSpaceC =
      (c :: t).dropWhile isSpaceC ++ tail := by
    rw [← List.cons_append, List.dropWhile_append]
    rw [if_neg (by simp [List.isEmpty_iff, hcw_ne])]
  have hcw_le : ((c :: t).dropWhile isSpaceC).length ≤ t.length := by
    rw [List.dropWhile_cons, if_pos hc]
    exact length_dropWhile_le _ _
  have F6 : ((c :: t).dropWhile isSpaceC ++ tail).length ≠
      (c :: (t ++ tail)).length := by
    simp only [List.length_append, List.length_cons]
    omega
  have htw_tail : tail.takeWhile isWordC = [] := by
    rcases htail with rfl | ⟨u, rfl⟩
    · rfl
    · rw [List.takeWhile_cons, if_neg (by decide)]
  have F7 : ((c :: t).dropWhile isSpaceC ++ tail).takeWhile isWordC =
      ((c :: t).dropWhile isSpaceC).takeWhile isWordC := by
    rw [List.takeWhile_append]
    split
    case isTrue hlen =>
      rw [htw_tail, List.append_nil]
      exact (List.IsPrefix.eq_of_length ( List.takeWhile_prefix _) hlen).symm ▸ rfl
    case isFalse => rfl
  have hnm_le : (((c :: t).dropWhile isSpaceC).takeWhile isWordC).length ≤
      ((c :: t).dropWhile isSpaceC).length := length_takeWhile_le _ _
  refine ⟨((c :: t).dropWhile isSpaceC).drop
      ((((c :: t).dropWhile isSpaceC).takeWhile isWordC).length), ?_, ?_⟩
  · have hs1 : ((c :: t).dropWhile isSpaceC).drop
        ((((c :: t).dropWhile isSpaceC).takeWhile isWordC).length) <:+
        (c :: t).dropWhile isSpaceC := List.drop_suffix _ _
    have hs2 : (c :: t).dropWhile isSpaceC <:+ (c :: t) :=
      List.dropWhile_suffix _
    have hs3 : (c :: t) <:+ l.dropWhile isSpaceC := by
      rw [← hdr]
      exact List.drop_suffix 6 _
    have hs4 : l.dropWhile isSpaceC <:+ l := List.dropWhile_suffix _
    intro hmem
    exact hnl (List.IsSuffix.subset ((hs1.trans hs2).trans (hs3.trans hs4)) hmem)
  · unfold matchDecl
    dsimp only
    rw [F2, F3, if_pos rfl, F4, F5, F7]
    rw [if_neg (by
      push_neg
      exact ⟨F6, hcwne⟩)]
    rw [List.drop_append_of_le_length hnm_le, hnm]

theorem dropWhile_head_not {p : Char → Bool} :
    ∀ {l : Str} {d : Char} {t : Str}, l.dropWhile p = d :: t → p d = false := by
  intro l
  induction l with
  | nil => intro d t h; cases h
  | cons c ls ih =>
    intro d t h
    rw [List.dropWhile_cons] at h
    split at h
    · exact ih h
    · rename_i hc
      injection h with h1 h2
      subst h1
      simpa using hc

theorem no_kwModule_in_line {r tail : Str}
    (hpre : ¬ kwModule.isPrefixOf r = true)
    (htail : tail = [] ∨ ∃ u, tail = '\n' :: u) :
    ¬ kwModule.isPrefixOf (r ++ tail) = true := by
  intro hyes
  obtain ⟨X, hX⟩ := isPrefixOf_iff_append.1 hyes
  by_cases hlen : 6 ≤ r.length
  · apply hpre
    apply isPrefixOf_iff_append.2
    refine ⟨r.drop 6, ?_⟩
    have htake : r.take 6 = kwModule := by
      have h1 : (r ++ tail).take 6 = r.take 6 :=
        List.take_append_of_le_length hlen
      have h2 : (kwModule ++ X).take 6 = kwModule := by
        rw [List.take_append_of_le_length (by simp [kwModule])]
        rfl
      rw [hX, h2] at h1
      exact h1.symm
    rw [← htake, List.take_append_drop]
  · rcases htail with rfl | ⟨u, rfl⟩
    · rw [List.append_nil] at hX
      have := congrArg List.length hX
      simp [kwModule] at this
      omega
    · have h1 : (r ++ '\n' :: u)[r.length]? = some '\n' := by
        rw [List.getElem?_append_right (le_refl _)]
        simp
      have h2 : (kwModule ++ X)[r.length]? = kwModule[r.length]? :=
        List.getElem?_append_left (by simp [kwModule]; omega)
      rw [hX, h2] at h1
      have h3 : ∀ i, i < 6 → ¬ ((kwModule : List Char)[i]? = some '\n') := by decide
      exact h3 r.length (by omega) h1

theorem matchDecl_line_none {l tail : Str}
    (hln : lineName l = none)
    (hH : kwModule.isPrefixOf (l.dropWhile isSpaceC) = true →
      ¬ ((l.dropWhile isSpaceC).drop 6).all isSpaceC = true)
    (hrne : l.dropWhile isSpaceC ≠ [])
    (htail : tail = [] ∨ ∃ u, tail = '\n' :: u) :
    matchDecl (l ++ tail) = none := by
  have F2 : (l ++ tail).dropWhile isSpaceC = l.dropWhile isSpaceC ++ tail := by
    rw [List.dropWhile_append]
    rw [if_neg (by simp [List.isEmpty_iff, hrne])]
  unfold lineName at hln
  dsimp only at hln
  unfold matchDecl
  dsimp only
  rw [F2]
  by_cases hpre : kwModule.isPrefixOf (l.dropWhile isSpaceC) = true
  case neg =>
    rw [if_neg (no_kwModule_in_line hpre htail)]
  case pos =>
  obtain ⟨d0, hd0⟩ := isPrefixOf_iff_append.1 hpre
  have h6 : 6 ≤ (l.dropWhile isSpaceC).length := by
    rw [hd0]; simp [kwModule]
  rw [if_pos (isPrefixOf_iff_append.2 ⟨d0 ++ tail, by rw [hd0, List.append_assoc]⟩)]
  rw [List.drop_append_of_le_length h6]
  rw [if_pos hpre] at hln
  cases hdr : (l.dropWhile isSpaceC).drop 6 with
  | nil => exact absurd (by rw [hdr]; rfl) (hH hpre)
  | cons c t =>
  rw [hdr] at hln
  dsimp only at hln
  rw [List.cons_append]
  by_cases hc : isSpaceC c = true
  case neg =>
    have hl3 : (c :: (t ++ tail)).dropWhile isSpaceC = c :: (t ++ tail) :=
      dropWhile_cons_false _ (by simpa using hc)
    rw [hl3]
    rw [if_pos (Or.inl rfl)]
  case pos =>
  rw [if_pos hc] at hln
  have hnm0 : (((c :: t).dropWhile isSpaceC).takeWhile isWordC).isEmpty = true := by
    by_contra h0
    rw [if_neg h0] at hln
    cases hln
  have hcw_ne : (c :: t).dropWhile isSpaceC ≠ [] := by
    intro h0
    apply hH hpre
    rw [hdr]
    exact List.all_eq_true.2 (List.dropWhile_eq_nil_iff.1 h0)
  obtain ⟨d, t2, hdt⟩ : ∃ d t2, (c :: t).dropWhile isSpaceC = d :: t2 := by
    cases hcw : (c :: t).dropWhile isSpaceC with
    | nil => exact absurd hcw hcw_ne
    | cons d t2 => exact ⟨d, t2, rfl⟩
  have hwd : isWordC d = false := by
    rw [hdt, List.takeWhile_cons] at hnm0
    by_contra hw
    rw [Bool.not_eq_false] at hw
    rw [if_pos hw] at hnm0
    cases hnm0
  have F5 : (c :: (t ++ tail)).dropWhile isSpaceC =
      (c :: t).dropWhile isSpaceC ++ tail := by
    rw [← List.cons_append, List.dropWhile_append]
    rw [if_neg (by simp [List.isEmpty_iff, hcw_ne])]
  rw [F5, hdt, List.cons_append]
  rw [if_pos]
  right
  rw [List.takeWhile_cons, if_neg (by simp [hwd])]

theorem scanD_line_step {l u : Str}
    (hnl : '\n' ∉ l)
    (hH : kwModule.isPrefixOf (l.dropWhile isSpaceC) = true →
      ¬ ((l.dropWhile isSpaceC).drop 6).all isSpaceC = true) :
    scanD (l ++ '\n' :: u) true = (lineName l).toList ++ scanD u true := by
  by_cases hws : l.dropWhile isSpaceC = []
  · have hall : l.all isSpaceC = true :=
      List.all_eq_true.2 (List.dropWhile_eq_nil_iff.1 hws)
    have hlnone : lineName l = none := by
      unfold lineName
      dsimp only
      rw [hws, if_neg (by decide)]
    rw [hlnone, scanD_ws_line hall hnl]
    rfl
  · obtain ⟨c, l', rfl⟩ : ∃ c l', l = c :: l' := by
      cases l with
      | nil => exact absurd rfl hws
      | cons c l' => exact ⟨c, l', rfl⟩
    have hcc : (c == '\n') = false :=
      beq_eq_false_iff_ne.2 (fun h => hnl (h ▸ List.mem_cons_self _ _))
    have hnl' : '\n' ∉ l' := fun h => hnl (List.mem_cons_of_mem _ h)
    cases hln : lineName (c :: l') with
    | some nm =>
      obtain ⟨rem, hremnl, hmd⟩ :=
        matchDecl_line_some hnl hln (Or.inr ⟨u, rfl⟩)
      rw [List.cons_append, scanD_cons_true]
      rw [show matchDecl (c :: (l' ++ '\n' :: u)) = some (nm, rem ++ '\n' :: u) from by
        rw [← List.cons_append]; exact hmd]
      dsimp only
      rw [scanD_walk_to_nl rem hremnl]
      rfl
    | none =>
      have hmd := matchDecl_line_none hln hH hws (Or.inr ⟨u, rfl⟩)
      rw [List.cons_append, scanD_cons_true]
      rw [show matchDecl (c :: (l' ++ '\n' :: u)) = none from by
        rw [← List.cons_append]; exact hmd]
      dsimp only
      rw [hcc, scanD_walk_to_nl l' hnl']
      rfl

theorem scanD_line_last {l : Str}
    (hnl : '\n' ∉ l)
    (hH : kwModule.isPrefixOf (l.dropWhile isSpaceC) = true →
      ¬ ((l.dropWhile isSpaceC).drop 6).all isSpaceC = true) :
    scanD l true = (lineName l).toList := by
  by_cases hws : l.dropWhile isSpaceC = []
  · have hall : l.all isSpaceC = true :=
      List.all_eq_true.2 (List.dropWhile_eq_nil_iff.1 hws)
    have hlnone : lineName l = none := by
      unfold lineName
      dsimp only
      rw [hws, if_neg (by decide)]
    rw [hlnone, scanD_ws_last hall hnl]
    rfl
  · obtain ⟨c, l', rfl⟩ : ∃ c l', l = c :: l' := by
      cases l with
      | nil => exact absurd rfl hws
      | cons c l' => exact ⟨c, l', rfl⟩
    have hcc : (c == '\n') = false :=
      beq_eq_false_iff_ne.2 (fun h => hnl (h ▸ List.mem_cons_self _ _))
    have hnl' : '\n' ∉ l' := fun h => hnl (List.mem_cons_of_mem _ h)
    cases hln : lineName (c :: l') with
    | some nm =>
      obtain ⟨rem, hremnl, hmd⟩ :=
        matchDecl_line_some hnl hln (Or.inl rfl)
      simp only [List.append_nil] at hmd
      rw [scanD_cons_true, hmd]
      dsimp only
      rw [scanD_walk_to_end rem hremnl]
      rfl
    | none =>
      have hmd := matchDecl_line_none hln hH hws (Or.inl rfl)
      simp only [List.append_nil] at hmd
      rw [scanD_cons_true, hmd]
      dsimp only
      rw [hcc, scanD_walk_to_end l' hnl']
      rfl

/-- Claim C4 amended: view a source text as its newline-separated lines.
Provided no `module` keyword at a line start is followed only by
whitespace up to the end of its own line (the identifier, when any, sits
on the same line), `get_module_names` returns exactly the per-line
captures: one name for each line that begins, after optional whitespace,
with the `module` keyword, whitespace and an identifier, in order,
without deduplication, and the empty sequence when there is no such
line.  (Without that proviso the regex `\s+` crosses the line break and
the counts differ, as the counterexample shows.) -/
theorem c4_amended_linewise (lines : List Str)
    (hnl : ∀ l ∈ lines, '\n' ∉ l)
    (hH : ∀ l ∈ lines, kwModule.isPrefixOf (l.dropWhile isSpaceC) = true →
      ¬ ((l.dropWhile isSpaceC).drop 6).all isSpaceC = true) :
    get_module_names (joinNL lines) = lines.filterMap lineName := by
  show scanD (joinNL lines) true = lines.filterMap lineName
  induction lines with
  | nil => rfl
  | cons l rest ih =>
    have hnl_l := hnl l (List.mem_cons_self _ _)
    have hH_l := hH l (List.mem_cons_self _ _)
    have hnl' : ∀ x ∈ rest, '\n' ∉ x :=
      fun x hx => hnl x (List.mem_cons_of_mem _ hx)
    have hH' : ∀ x ∈ rest, kwModule.isPrefixOf (x.dropWhile isSpaceC) = true →
        ¬ ((x.dropWhile isSpaceC).drop 6).all isSpaceC = true :=
      fun x hx => hH x (List.mem_cons_of_mem _ hx)
    cases rest with
    | nil =>
      show scanD l true = _
      rw [scanD_line_last hnl_l hH_l, List.filterMap_cons]
      cases lineName l <;> rfl
    | cons l2 rs =>
      show scanD (l ++ '\n' :: joinNL (l2 :: rs)) true = _
      rw [scanD_line_step hnl_l hH_l, ih hnl' hH']
      cases hlf : lineName l <;> simp [List.filterMap_cons, hlf]

/-- Claim C4 counterexample: the text built from the two lines `module`
and `x` contains no line that begins with the `module` keyword followed
by an identifier, yet the Module Locator returns one name: the `\s+` of
the regex crosses the line break and captures `x` from the next line. -/
theorem c4_counterexample :
    joinNL [("module".toList), ['x']] = ("module\nx".toList) ∧
    lineName ("module".toList) = none ∧
    lineName ['x'] = none ∧
    get_module_names ("module\nx".toList) = [['x']] ∧
    (get_module_names ("module\nx".toList)).length ≠
      ([("module".toList), ['x']].filterMap lineName).length := by decide

theorem c4_amended_linewise_witness :
    (∀ l ∈ [("module m1(a);".toList), ("endmodule".toList),
        ("module m1(b);".toList), ("endmodule".toList)], '\n' ∉ l) ∧
    get_module_names (joinNL [("module m1(a);".toList), ("endmodule".toList),
        ("module m1(b);".toList), ("endmodule".toList)]) =
      [("m1".toList), ("m1".toList)] := by
  refine ⟨by decide, ?_⟩
  rw [c4_amended_linewise _ (by decide) (by decide)]
  decide
